import Mathlib

/-!
Shallow embedding of the bucketed rate-limiting subsystem of
`tanjun/dependencies/limiters.py`: cooldown states and managers,
concurrency-limit states and managers, the three bucket-store topologies
(flat / member / global) and the concurrency acquisition ledger.

Python dictionaries are embedded as association lists (first occurrence of a
key wins, assignment replaces in place or appends, matching insertion-order
semantics).  `time.monotonic()` is an implicit input of the Python code and is
passed explicitly as a `now : Rat` argument.  Heap-allocated, possibly aliased
`_ConcurrencyLimit` objects are embedded through an explicit heap of
`Nat`-valued references, because the manager's acquisition ledger aliases the
same state object that the bucket mapping holds.
-/

set_option autoImplicit false
set_option linter.unusedSectionVars false
set_option linter.unnecessarySeqFocus false

namespace Tanjun

variable {α : Type} {β : Type} [DecidableEq α]

/-- Lookup in an association list: first entry with the given key. -/
def aget (k : α) : List (α × β) → Option β
  | [] => none
  | (k', v') :: rest => if k = k' then some v' else aget k rest

/-- Dictionary assignment: replace the first entry with the given key,
or append a fresh entry when the key is absent. -/
def aset (k : α) (v : β) : List (α × β) → List (α × β)
  | [] => [(k, v)]
  | (k', v') :: rest => if k = k' then (k, v) :: rest else (k', v') :: aset k v rest

/-- Dictionary `pop`: remove the first entry with the given key. -/
def aerase (k : α) : List (α × β) → List (α × β)
  | [] => []
  | (k', v') :: rest => if k = k' then rest else (k', v') :: aerase k rest


/-- The keys of an association list are pairwise distinct. -/
def keysNodup (l : List (α × β)) : Prop := (l.map Prod.fst).Nodup

def countVal [DecidableEq β] (l : List (α × β)) (b : β) : Nat :=
  (l.filter (fun e => e.2 = b)).length


/-- Discord snowflake identifiers (`hikari.Snowflake`). -/
abbrev Snowflake : Type := Nat

/-- `BucketResource` enumeration from the source (the commented-out
`CATEGORY` member is not exposed and therefore not modelled). -/
inductive BucketResource where
  | USER
  | MEMBER
  | CHANNEL
  | PARENT_CHANNEL
  | TOP_ROLE
  | GUILD
  | GLOBAL
deriving DecidableEq

/-- The execution context (`tanjun.abc.Context`) restricted to the data the
limiters consume.  `ident` stands for Python object identity, which is what
keys the concurrency manager's `_acquiring_ctxs` ledger.  `parentTarget` and
`topRoleTarget` are the snowflakes the asynchronous `PARENT_CHANNEL` /
`TOP_ROLE` resolution tiers of `_get_ctx_target` would produce through the
external cache/REST collaborators when the context carries a guild. -/
structure Ctx where
  ident : Nat
  authorId : Snowflake
  channelId : Snowflake
  guildId : Option Snowflake
  parentTarget : Snowflake
  topRoleTarget : Snowflake
deriving DecidableEq

/-- `_get_ctx_target(ctx, type_)`: derive the flat-bucket key for a resource
kind.  `MEMBER` and `GLOBAL` never reach this function (`_to_bucket` builds
the member/global topologies instead of a flat store), mirroring the
`ValueError` branch by an arbitrary total value. -/
def getCtxTarget (ctx : Ctx) : BucketResource → Snowflake
  | .USER => ctx.authorId
  | .CHANNEL => ctx.channelId
  | .PARENT_CHANNEL =>
    match ctx.guildId with
    | none => ctx.channelId
    | some _ => ctx.parentTarget
  | .TOP_ROLE =>
    match ctx.guildId with
    | none => ctx.channelId
    | some _ => ctx.topRoleTarget
  | .GUILD => ctx.guildId.getD ctx.channelId
  | .MEMBER => ctx.channelId
  | .GLOBAL => ctx.channelId

/-- `_Cooldown`: per-key use counter with a rolling reset window.
Timestamps and durations are rationals; `time.monotonic()` is passed
explicitly as `now`. -/
structure Cooldown where
  counter : Nat
  limit : Int
  reset_after : Rat
  resets_at : Rat
deriving DecidableEq

/-- `_Cooldown.__init__(limit=..., reset_after=...)` at instant `now`. -/
def Cooldown.make (limit : Int) (reset_after : Rat) (now : Rat) : Cooldown :=
  { counter := 0, limit := limit, reset_after := reset_after, resets_at := now + reset_after }

/-- `_Cooldown.has_expired`. -/
def Cooldown.has_expired (c : Cooldown) (now : Rat) : Bool :=
  now ≥ c.resets_at

/-- The final two lines of `_Cooldown.increment`: bump the counter while it
remains below the limit. -/
def Cooldown.bump (c : Cooldown) : Cooldown :=
  if (c.counter : Int) < c.limit then { c with counter := c.counter + 1 } else c

/-- `_Cooldown.increment` at instant `now`: no-op when unlimited, otherwise
anchor or roll the window, then bump the counter below the limit. -/
def Cooldown.increment (c : Cooldown) (now : Rat) : Cooldown :=
  if c.limit = -1 then c
  else
    Cooldown.bump
      (if c.counter = 0 then { c with resets_at := now + c.reset_after }
       else if now ≥ c.resets_at then { c with counter := 0, resets_at := now + c.reset_after }
       else c)

/-- `_Cooldown.must_wait_for` at instant `now`. -/
def Cooldown.must_wait_for (c : Cooldown) (now : Rat) : Option Rat :=
  if c.limit = -1 then none
  else if (c.counter : Int) ≥ c.limit ∧ c.resets_at - now > 0 then some (c.resets_at - now)
  else none

/-- The `increment=True` branch of `InMemoryCooldownManager.check_cooldown`
restricted to the keyed `_Cooldown` state it operates on: if the state
signals a wait, return it without mutating, else increment. -/
def cooldownCheckInc (c : Cooldown) (now : Rat) : Option Rat × Cooldown :=
  match c.must_wait_for now with
  | some w => (some w, c)
  | none => (none, c.increment now)

/-- Iterate `cooldownCheckInc` over a list of call instants, collecting the
returned waits. -/
def runCheckInc (c : Cooldown) : List Rat → List (Option Rat) × Cooldown
  | [] => ([], c)
  | t :: ts =>
    let (r, c') := cooldownCheckInc c t
    let (rs, c'') := runCheckInc c' ts
    (r :: rs, c'')

/-- A cooldown bucket store: `_FlatResource` / `_MemberResource` /
`_GlobalResource` specialised to `_Cooldown` inner states.  The
`make_resource` factory closure of the source is the captured pair
`(limit, reset_after)`.  Cooldown states are owned by exactly one slot of
their store (every factory call makes a fresh object), so they are stored
by value. -/
inductive CdResource where
  | flat (res : BucketResource) (limit : Int) (reset_after : Rat)
      (mapping : List (Snowflake × Cooldown))
  | member (limit : Int) (reset_after : Rat)
      (dm_fallback : List (Snowflake × Cooldown))
      (mapping : List (Snowflake × List (Snowflake × Cooldown)))
  | global (limit : Int) (reset_after : Rat) (bucket : Cooldown)
deriving DecidableEq

/-- `copy()`: fresh empty maps sharing the factory; the global topology's
copy invokes the factory at copy time (`now`). -/
def CdResource.copy (r : CdResource) (now : Rat) : CdResource :=
  match r with
  | .flat res l ra _ => .flat res l ra []
  | .member l ra _ _ => .member l ra [] []
  | .global l ra _ => .global l ra (Cooldown.make l ra now)

/-- `try_into_inner(ctx)`: look up the keyed state without creating it.
The member topology mirrors Python truthiness: an empty per-guild submap is
falsy and falls through to `None`. -/
def CdResource.try_into_inner (r : CdResource) (ctx : Ctx) : Option Cooldown :=
  match r with
  | .flat res _ _ mapping => aget (getCtxTarget ctx res) mapping
  | .member _ _ dm mp =>
    match ctx.guildId with
    | none => aget ctx.channelId dm
    | some g =>
      match aget g mp with
      | some gm => if gm.isEmpty then none else aget ctx.authorId gm
      | none => none
  | .global _ _ bucket => some bucket

/-- `into_inner(ctx)`: get or lazily create the keyed state.  Returns the
state together with the store updater that writes a mutation of that state
back into the slot the Python object lives in (object mutation through the
returned alias). -/
def CdResource.into_inner (r : CdResource) (ctx : Ctx) (now : Rat) :
    Cooldown × (Cooldown → CdResource) :=
  match r with
  | .flat res l ra mapping =>
    let target := getCtxTarget ctx res
    let upd := fun c' => CdResource.flat res l ra (aset target c' mapping)
    match aget target mapping with
    | some c => (c, upd)
    | none => (Cooldown.make l ra now, upd)
  | .member l ra dm mp =>
    (match ctx.guildId with
     | none =>
       let upd := fun c' => CdResource.member l ra (aset ctx.channelId c' dm) mp
       match aget ctx.channelId dm with
       | some c => (c, upd)
       | none => (Cooldown.make l ra now, upd)
     | some g =>
       match aget g mp with
       | some gm =>
         let upd := fun c' => CdResource.member l ra dm (aset g (aset ctx.authorId c' gm) mp)
         match aget ctx.authorId gm with
         | some c => (c, upd)
         | none => (Cooldown.make l ra now, upd)
       | none =>
         (Cooldown.make l ra now,
          fun c' => CdResource.member l ra dm (aset g [(ctx.authorId, c')] mp)))
  | .global l ra bucket => (bucket, fun c' => CdResource.global l ra c')

/-- `_to_bucket(resource, make_resource)`; the global topology invokes the
factory at construction time. -/
def toCdBucket (resource : BucketResource) (limit : Int) (reset_after : Rat)
    (now : Rat) : CdResource :=
  match resource with
  | .MEMBER => .member limit reset_after [] []
  | .GLOBAL => .global limit reset_after (Cooldown.make limit reset_after now)
  | r => .flat r limit reset_after []

/-- `InMemoryCooldownManager` (the background sweep task handle is
lifecycle plumbing and carries no bucket state). -/
structure CooldownManager where
  buckets : List (String × CdResource)
  default_bucket_template : CdResource
deriving DecidableEq

/-- `InMemoryCooldownManager.__init__`: per-user, 2 uses per 5 seconds
default template. -/
def CooldownManager.init : CooldownManager :=
  { buckets := [], default_bucket_template := .flat .USER 2 5 [] }

/-- `InMemoryCooldownManager._get_or_default`. -/
def CooldownManager.get_or_default (m : CooldownManager) (bucket_id : String)
    (now : Rat) : CdResource × CooldownManager :=
  match aget bucket_id m.buckets with
  | some bucket => (bucket, m)
  | none =>
    let bucket := m.default_bucket_template.copy now
    (bucket, { m with buckets := aset bucket_id bucket m.buckets })

/-- `InMemoryCooldownManager.check_cooldown` at instant `now`; returns the
wait (or `none`) and the updated manager. -/
def CooldownManager.check_cooldown (m : CooldownManager) (bucket_id : String)
    (ctx : Ctx) (increment : Bool) (now : Rat) : Option Rat × CooldownManager :=
  if increment then
    let (bucket, m) := m.get_or_default bucket_id now
    let (c, upd) := bucket.into_inner ctx now
    match c.must_wait_for now with
    | some w => (some w, { m with buckets := aset bucket_id (upd c) m.buckets })
    | none => (none, { m with buckets := aset bucket_id (upd (c.increment now)) m.buckets })
  else
    match aget bucket_id m.buckets with
    | none => (none, m)
    | some bucket =>
      match bucket.try_into_inner ctx with
      | none => (none, m)
      | some c => (c.must_wait_for now, m)

/-- `InMemoryCooldownManager.disable_bucket` at instant `now`. -/
def CooldownManager.disable_bucket (m : CooldownManager) (bucket_id : String)
    (now : Rat) : CooldownManager :=
  let bucket := CdResource.global (-1) (-1) (Cooldown.make (-1) (-1) now)
  let m := { m with buckets := aset bucket_id bucket m.buckets }
  if bucket_id = "default" then { m with default_bucket_template := bucket.copy now }
  else m

/-- `InMemoryCooldownManager.set_bucket` at instant `now` (`none` models
the `ValueError` on non-positive `reset_after` or `limit`; the
`datetime.timedelta` overload is already a duration here). -/
def CooldownManager.set_bucket (m : CooldownManager) (bucket_id : String)
    (resource : BucketResource) (limit : Int) (reset_after : Rat) (now : Rat) :
    Option CooldownManager :=
  if reset_after ≤ 0 then none
  else if limit ≤ 0 then none
  else
    let bucket := toCdBucket resource limit reset_after now
    let m := { m with buckets := aset bucket_id bucket m.buckets }
    some (if bucket_id = "default" then { m with default_bucket_template := bucket.copy now }
          else m)

/-- `_ConcurrencyLimit`: per-key in-flight counter. -/
structure ConcurrencyLimit where
  counter : Nat
  limit : Int
deriving DecidableEq

/-- `_ConcurrencyLimit.acquire`. -/
def ConcurrencyLimit.acquire (c : ConcurrencyLimit) : Bool × ConcurrencyLimit :=
  if (c.counter : Int) < c.limit then (true, { c with counter := c.counter + 1 })
  else if c.limit = -1 then (true, c)
  else (false, c)

/-- `_ConcurrencyLimit.release`; `none` models the
"Cannot release a limit that has not been acquired" `RuntimeError`. -/
def ConcurrencyLimit.release (c : ConcurrencyLimit) : Option ConcurrencyLimit :=
  if c.counter > 0 then some { c with counter := c.counter - 1 }
  else if c.limit = -1 then some c
  else none

/-- `_ConcurrencyLimit.has_expired`. -/
def ConcurrencyLimit.has_expired (c : ConcurrencyLimit) : Bool :=
  c.counter == 0

/-- A concurrency bucket store.  Unlike cooldown states,
`_ConcurrencyLimit` objects are aliased by the manager ledger, so stores
hold `Nat` heap references instead of values; the factory closure is the
captured `limit`. -/
inductive CcResource where
  | flat (res : BucketResource) (limit : Int) (mapping : List (Snowflake × Nat))
  | member (limit : Int) (dm_fallback : List (Snowflake × Nat))
      (mapping : List (Snowflake × List (Snowflake × Nat)))
  | global (limit : Int) (ref : Nat)
deriving DecidableEq

/-- `InMemoryConcurrencyLimiter` together with the object heap the
`_ConcurrencyLimit` instances live on.  `acquiring_ctxs` is the
acquisition ledger keyed by `(bucket_id, context identity)`. -/
structure ConcurrencyManager where
  heap : List (Nat × ConcurrencyLimit)
  nextRef : Nat
  acquiring_ctxs : List ((String × Ctx) × Nat)
  buckets : List (String × CcResource)
  default_bucket_template : CcResource
deriving DecidableEq

/-- Allocate a fresh `_ConcurrencyLimit` object on the heap
(a factory call `make_resource()`). -/
def ConcurrencyManager.alloc (m : ConcurrencyManager) (c : ConcurrencyLimit) :
    Nat × ConcurrencyManager :=
  (m.nextRef, { m with heap := aset m.nextRef c m.heap, nextRef := m.nextRef + 1 })

/-- Read a heap reference (always defined on references the manager ever
hands out; the default is never reached from reachable states). -/
def ConcurrencyManager.deref (m : ConcurrencyManager) (ref : Nat) : ConcurrencyLimit :=
  (aget ref m.heap).getD { counter := 0, limit := 0 }

/-- `copy()` of a concurrency store: fresh maps sharing the factory; the
global topology's copy invokes the factory, allocating a fresh state. -/
def CcResource.copy (r : CcResource) (m : ConcurrencyManager) :
    CcResource × ConcurrencyManager :=
  match r with
  | .flat res l _ => (.flat res l [], m)
  | .member l _ _ => (.member l [] [], m)
  | .global l _ =>
    let (ref, m) := m.alloc { counter := 0, limit := l }
    (.global l ref, m)

/-- `into_inner(ctx)` for a concurrency store: get or lazily allocate the
keyed state, returning its heap reference, the updated store and the
updated manager heap. -/
def CcResource.into_inner (r : CcResource) (ctx : Ctx) (m : ConcurrencyManager) :
    Nat × CcResource × ConcurrencyManager :=
  match r with
  | .flat res l mapping =>
    let target := getCtxTarget ctx res
    (match aget target mapping with
     | some ref => (ref, .flat res l mapping, m)
     | none =>
       let (ref, m) := m.alloc { counter := 0, limit := l }
       (ref, .flat res l (aset target ref mapping), m))
  | .member l dm mp =>
    (match ctx.guildId with
     | none =>
       (match aget ctx.channelId dm with
        | some ref => (ref, .member l dm mp, m)
        | none =>
          let (ref, m) := m.alloc { counter := 0, limit := l }
          (ref, .member l (aset ctx.channelId ref dm) mp, m))
     | some g =>
       match aget g mp with
       | some gm =>
         (match aget ctx.authorId gm with
          | some ref => (ref, .member l dm mp, m)
          | none =>
            let (ref, m) := m.alloc { counter := 0, limit := l }
            (ref, .member l dm (aset g (aset ctx.authorId ref gm) mp), m))
       | none =>
         let (ref, m) := m.alloc { counter := 0, limit := l }
         (ref, .member l dm (aset g [(ctx.authorId, ref)] mp), m))
  | .global l ref => (ref, .global l ref, m)

/-- The pure lookup tier of `into_inner` for a concurrency store: the heap
reference the store already holds for the context's key, if any (the
per-guild lookup uses `is not None`, exactly as `into_inner` does). -/
def CcResource.lookupRef (r : CcResource) (ctx : Ctx) : Option Nat :=
  match r with
  | .flat res _ mapping => aget (getCtxTarget ctx res) mapping
  | .member _ dm mp =>
    match ctx.guildId with
    | none => aget ctx.channelId dm
    | some g =>
      match aget g mp with
      | some gm => aget ctx.authorId gm
      | none => none
  | .global _ ref => some ref

/-- The `limit` the factory closure of a concurrency store captures. -/
def CcResource.limitOf : CcResource → Int
  | .flat _ l _ => l
  | .member l _ _ => l
  | .global l _ => l

/-- `InMemoryConcurrencyLimiter.__init__`: per-user limit-1 default
template, empty ledger. -/
def ConcurrencyManager.init : ConcurrencyManager :=
  { heap := [], nextRef := 0, acquiring_ctxs := [], buckets := [],
    default_bucket_template := .flat .USER 1 [] }

/-- Shared tail of `try_acquire` after the bucket is in hand: resolve the
keyed state, call `acquire()` on it and, on success, record the exact
state reference in the ledger. -/
def ConcurrencyManager.acquireIn (m : ConcurrencyManager) (bucket_id : String)
    (ctx : Ctx) (bucket : CcResource) : Bool × ConcurrencyManager :=
  let (ref, bucket, m) := bucket.into_inner ctx m
  let m := { m with buckets := aset bucket_id bucket m.buckets }
  let s := m.deref ref
  let (result, s') := s.acquire
  let m := { m with heap := aset ref s' m.heap }
  if result then
    (result, { m with acquiring_ctxs := aset (bucket_id, ctx) ref m.acquiring_ctxs })
  else (result, m)

/-- `InMemoryConcurrencyLimiter.try_acquire`: materialise the bucket if
unseen; otherwise de-duplicate an acquisition already recorded in the
ledger for the same `(bucket_id, ctx)` before acquiring. -/
def ConcurrencyManager.try_acquire (m : ConcurrencyManager) (bucket_id : String)
    (ctx : Ctx) : Bool × ConcurrencyManager :=
  match aget bucket_id m.buckets with
  | none =>
    let (bucket, m) := m.default_bucket_template.copy m
    let m := { m with buckets := aset bucket_id bucket m.buckets }
    m.acquireIn bucket_id ctx bucket
  | some bucket =>
    if (aget (bucket_id, ctx) m.acquiring_ctxs).isSome then (true, m)
    else m.acquireIn bucket_id ctx bucket

/-- `InMemoryConcurrencyLimiter.release`: pop the ledger entry and release
the recorded state; `none` models the propagated `RuntimeError` of
`_ConcurrencyLimit.release`. -/
def ConcurrencyManager.release (m : ConcurrencyManager) (bucket_id : String)
    (ctx : Ctx) : Option ConcurrencyManager :=
  match aget (bucket_id, ctx) m.acquiring_ctxs with
  | none => some m
  | some ref =>
    let m := { m with acquiring_ctxs := aerase (bucket_id, ctx) m.acquiring_ctxs }
    match (m.deref ref).release with
    | none => none
    | some s' => some { m with heap := aset ref s' m.heap }

/-- `InMemoryConcurrencyLimiter.disable_bucket`. -/
def ConcurrencyManager.disable_bucket (m : ConcurrencyManager) (bucket_id : String) :
    ConcurrencyManager :=
  let (ref, m) := m.alloc { counter := 0, limit := -1 }
  let bucket := CcResource.global (-1) ref
  let m := { m with buckets := aset bucket_id bucket m.buckets }
  if bucket_id = "default" then
    let (tmpl, m) := bucket.copy m
    { m with default_bucket_template := tmpl }
  else m

/-- `_to_bucket` for concurrency limits. -/
def toCcBucket (resource : BucketResource) (limit : Int) (m : ConcurrencyManager) :
    CcResource × ConcurrencyManager :=
  match resource with
  | .MEMBER => (.member limit [] [], m)
  | .GLOBAL =>
    let (ref, m) := m.alloc { counter := 0, limit := limit }
    (.global limit ref, m)
  | r => (.flat r limit [], m)

/-- `InMemoryConcurrencyLimiter.set_bucket` (`none` models the
`ValueError` on a non-positive limit, raised before any mutation). -/
def ConcurrencyManager.set_bucket (m : ConcurrencyManager) (bucket_id : String)
    (resource : BucketResource) (limit : Int) : Option ConcurrencyManager :=
  if limit ≤ 0 then none
  else
    let (bucket, m) := toCcBucket resource limit m
    let m := { m with buckets := aset bucket_id bucket m.buckets }
    if bucket_id = "default" then
      let (tmpl, m) := bucket.copy m
      some { m with default_bucket_template := tmpl }
    else some m

/-- Is the state behind a heap reference expired (`counter == 0`)? -/
def expiredRef (heap : List (Nat × ConcurrencyLimit)) (ref : Nat) : Bool :=
  ((aget ref heap).getD { counter := 0, limit := 0 }).has_expired

/-- `cleanup()` of one concurrency store, as run by the `_gc` sweep loop:
drop expired keyed states; prune empty per-guild submaps; the global
topology's cleanup is a no-op. -/
def CcResource.cleanup (r : CcResource) (heap : List (Nat × ConcurrencyLimit)) :
    CcResource :=
  match r with
  | .flat res l mapping => .flat res l (mapping.filter (fun e => ¬ expiredRef heap e.2))
  | .member l dm mp =>
    .member l (dm.filter (fun e => ¬ expiredRef heap e.2))
      ((mp.map (fun gm => (gm.1, gm.2.filter (fun e => ¬ expiredRef heap e.2)))).filter
        (fun gm => ¬ gm.2.isEmpty))
  | .global l ref => .global l ref

/-- One pass of the `_gc` sweep: `cleanup()` on every bucket. -/
def ConcurrencyManager.cleanup (m : ConcurrencyManager) : ConcurrencyManager :=
  { m with buckets := m.buckets.map (fun b => (b.1, b.2.cleanup m.heap)) }

/-- The public operations of `InMemoryConcurrencyLimiter`. -/
inductive CcOp where
  | tryAcquireOp (bucket_id : String) (ctx : Ctx)
  | releaseOp (bucket_id : String) (ctx : Ctx)
  | setBucketOp (bucket_id : String) (resource : BucketResource) (limit : Int)
  | disableBucketOp (bucket_id : String)
  | cleanupOp

/-- Big-step transition of one public operation (an operation that raises
leaves the state it had raised from: `set_bucket` validates before
mutating, and the `release` error branch is the one proven unreachable). -/
def ccStep (m : ConcurrencyManager) : CcOp → ConcurrencyManager
  | .tryAcquireOp bucket_id ctx => (m.try_acquire bucket_id ctx).2
  | .releaseOp bucket_id ctx => (m.release bucket_id ctx).getD m
  | .setBucketOp bucket_id resource limit => (m.set_bucket bucket_id resource limit).getD m
  | .disableBucketOp bucket_id => m.disable_bucket bucket_id
  | .cleanupOp => m.cleanup

/-- Manager states reachable from a fresh `InMemoryConcurrencyLimiter`
through the public interface. -/
inductive CcReachable : ConcurrencyManager → Prop where
  | init : CcReachable ConcurrencyManager.init
  | step (m : ConcurrencyManager) (op : CcOp) :
      CcReachable m → CcReachable (ccStep m op)

/-- Fold a `_ConcurrencyLimit` state through a sequence of raw
`acquire` (`true`) / `release` (`false`) calls. -/
def runCcOps (c : ConcurrencyLimit) : List Bool → ConcurrencyLimit
  | [] => c
  | true :: ops => runCcOps c.acquire.2 ops
  | false :: ops => runCcOps (c.release.getD c) ops

/-- Fold a `_Cooldown` state through a sequence of timed `increment` calls. -/
def runIncrements (c : Cooldown) : List Rat → Cooldown
  | [] => c
  | t :: ts => runIncrements (c.increment t) ts

/-- The counter-bounds invariant of a cooldown state: when the limit is
finite, the counter never exceeds it. -/
def CdInv (c : Cooldown) : Prop :=
  c.limit ≠ -1 → 0 ≤ (c.counter : Int) ∧ (c.counter : Int) ≤ c.limit

/-- The counter-bounds invariant of a concurrency state. -/
def CcInv (c : ConcurrencyLimit) : Prop :=
  c.limit ≠ -1 → 0 ≤ (c.counter : Int) ∧ (c.counter : Int) ≤ c.limit

/-- Number of ledger entries aliasing a given heap reference. -/
def refCount (ledger : List ((String × Ctx) × Nat)) (ref : Nat) : Nat :=
  countVal ledger ref

/-- Heap references a concurrency store holds. -/
def CcResource.refs (r : CcResource) : List Nat :=
  match r with
  | .flat _ _ mapping => mapping.map Prod.snd
  | .member _ dm mp => dm.map Prod.snd ++ (mp.map (fun gm => gm.2.map Prod.snd)).flatten
  | .global _ ref => [ref]

/-- The inductive invariant of the concurrency manager that makes the
release-error branch unreachable: ledger keys are distinct; every ledger
entry dereferences to a live state that is either unlimited or holds a
counter at least as large as the number of ledger aliases of it; all heap
keys and all store references are below the allocation bound. -/
def CcWf (m : ConcurrencyManager) : Prop :=
  keysNodup m.acquiring_ctxs ∧
  (∀ e ∈ m.acquiring_ctxs, ∃ s, aget e.2 m.heap = some s ∧
    (s.limit = -1 ∨ refCount m.acquiring_ctxs e.2 ≤ s.counter)) ∧
  (∀ p ∈ m.heap, p.1 < m.nextRef) ∧
  (∀ b ∈ m.buckets, ∀ ref ∈ CcResource.refs b.2, ref < m.nextRef)

/-- `cleanup()` of one cooldown store, as run by the `_gc` sweep loop at
instant `now`: drop expired keyed states; prune empty per-guild submaps;
the global topology's cleanup is a no-op. -/
def CdResource.cleanup (r : CdResource) (now : Rat) : CdResource :=
  match r with
  | .flat res l ra mapping =>
    .flat res l ra (mapping.filter (fun e => ¬ e.2.has_expired now))
  | .member l ra dm mp =>
    .member l ra (dm.filter (fun e => ¬ e.2.has_expired now))
      ((mp.map (fun gm => (gm.1, gm.2.filter (fun e => ¬ e.2.has_expired now)))).filter
        (fun gm => ¬ gm.2.isEmpty))
  | .global l ra bucket => .global l ra bucket

/-- A concrete direct-message execution context used by concrete instances. -/
def ctxA : Ctx :=
  { ident := 0, authorId := 10, channelId := 20, guildId := none,
    parentTarget := 0, topRoleTarget := 0 }

/-- A second concrete context (distinct identity and author). -/
def ctxB : Ctx :=
  { ident := 1, authorId := 11, channelId := 21, guildId := none,
    parentTarget := 0, topRoleTarget := 0 }

/-- A concrete cooldown manager whose bucket `"g"` is a global store
holding a 1-use-per-5-seconds state created at instant 0. -/
def mgA : CooldownManager :=
  { buckets := [("g", CdResource.global 1 5 ⟨0, 1, 5, 5⟩)],
    default_bucket_template := CdResource.flat .USER 2 5 [] }

/-- A concrete concurrency manager holding one acquisition: bucket `"b"`
is a per-user store whose state for user 10 (reference 0, counter 1 of
limit 1) is recorded in the ledger for `("b", ctxA)`. -/
def mcA : ConcurrencyManager :=
  { heap := [(0, ⟨1, 1⟩)], nextRef := 1,
    acquiring_ctxs := [(("b", ctxA), 0)],
    buckets := [("b", CcResource.flat .USER 1 [(10, 0)])],
    default_bucket_template := CcResource.flat .USER 1 [] }

-- ## Association-list lemmas

@[simp] theorem aget_nil (k : α) : aget k ([] : List (α × β)) = none := rfl

@[simp] theorem aget_cons (k k' : α) (v' : β) (rest : List (α × β)) :
    aget k ((k', v') :: rest) = if k = k' then some v' else aget k rest := rfl

@[simp] theorem aset_nil (k : α) (v : β) : aset k v ([] : List (α × β)) = [(k, v)] := rfl

@[simp] theorem aset_cons (k : α) (v : β) (k' : α) (v' : β) (rest : List (α × β)) :
    aset k v ((k', v') :: rest) =
      if k = k' then (k, v) :: rest else (k', v') :: aset k v rest := rfl

@[simp] theorem aerase_cons (k k' : α) (v' : β) (rest : List (α × β)) :
    aerase k ((k', v') :: rest) =
      if k = k' then rest else (k', v') :: aerase k rest := rfl

@[simp] theorem aget_aset_self (k : α) (v : β) (l : List (α × β)) :
    aget k (aset k v l) = some v := by
  induction l with
  | nil => simp [aget, aset]
  | cons hd tl ih =>
    by_cases h : k = hd.1
    · simp [aset, aget, h]
    · simp [aset, aget, h, ih]

theorem aget_aset_ne (k k' : α) (v : β) (l : List (α × β)) (h : k' ≠ k) :
    aget k' (aset k v l) = aget k' l := by
  induction l with
  | nil => simp [aget, aset, h]
  | cons hd tl ih =>
    by_cases hk : k = hd.1
    · subst hk
      simp [aset, aget, h]
    · by_cases hk' : k' = hd.1
      · simp [aset, aget, hk, hk']
      · simp [aset, aget, hk, hk', ih]

theorem aset_eq_of_aget (k : α) (v : β) (l : List (α × β)) (h : aget k l = some v) :
    aset k v l = l := by
  induction l with
  | nil => simp [aget] at h
  | cons hd tl ih =>
    by_cases hk : k = hd.1
    · have h' : hd.2 = v := by simpa [aget, hk] using h
      simp [aset, hk, ← h', Prod.mk.eta]
    · simp [aget, hk] at h
      simp [aset, hk, ih h]

theorem aget_mem (k : α) (v : β) (l : List (α × β)) (h : aget k l = some v) :
    (k, v) ∈ l := by
  induction l with
  | nil => simp [aget] at h
  | cons hd tl ih =>
    by_cases hk : k = hd.1
    · have h' : hd.2 = v := by simpa [aget, hk] using h
      rw [List.mem_cons]
      left
      rw [hk, ← h']
    · simp [aget, hk] at h
      exact List.mem_cons_of_mem _ (ih h)

theorem mem_aset (e : α × β) (k : α) (v : β) (l : List (α × β)) (h : e ∈ aset k v l) :
    e ∈ l ∨ e = (k, v) := by
  induction l with
  | nil => simp [aset] at h; right; exact h
  | cons hd tl ih =>
    by_cases hk : k = hd.1
    · simp only [aset, if_pos hk, List.mem_cons] at h
      rcases h with h | h
      · right; exact h
      · left; exact List.mem_cons_of_mem _ h
    · simp only [aset, if_neg hk, List.mem_cons] at h
      rcases h with h | h
      · left; rw [h]; exact List.mem_cons_self _ _
      · rcases ih h with h | h
        · left; exact List.mem_cons_of_mem _ h
        · right; exact h

theorem mem_aerase (e : α × β) (k : α) (l : List (α × β)) (h : e ∈ aerase k l) : e ∈ l := by
  induction l with
  | nil => simp [aerase] at h
  | cons hd tl ih =>
    by_cases hk : k = hd.1
    · simp [aerase, hk] at h
      exact List.mem_cons_of_mem _ h
    · simp only [aerase, if_neg hk, List.mem_cons] at h
      rcases h with h | h
      · rw [h]; exact List.mem_cons_self _ _
      · exact List.mem_cons_of_mem _ (ih h)

theorem keys_aset_subset (k : α) (v : β) (l : List (α × β)) (x : α)
    (h : x ∈ (aset k v l).map Prod.fst) : x = k ∨ x ∈ l.map Prod.fst := by
  simp only [List.mem_map] at h
  obtain ⟨e, he, hx⟩ := h
  rcases mem_aset e k v l he with h | h
  · right; exact hx ▸ List.mem_map_of_mem _ h
  · left; rw [← hx, h]

theorem keysNodup_aset (k : α) (v : β) (l : List (α × β)) (h : keysNodup l) :
    keysNodup (aset k v l) := by
  induction l with
  | nil => simp [keysNodup, aset]
  | cons hd tl ih =>
    by_cases hk : k = hd.1
    · simp only [keysNodup, aset, if_pos hk, List.map_cons, List.nodup_cons] at h ⊢
      exact ⟨hk ▸ h.1, h.2⟩
    · simp only [keysNodup, aset, if_neg hk, List.map_cons, List.nodup_cons] at h ⊢
      refine ⟨fun hmem => ?_, ih h.2⟩
      rcases keys_aset_subset k v tl hd.1 hmem with h' | h'
      · exact hk h'.symm
      · exact h.1 h'

theorem keysNodup_aerase (k : α) (l : List (α × β)) (h : keysNodup l) :
    keysNodup (aerase k l) := by
  induction l with
  | nil => simp [keysNodup, aerase]
  | cons hd tl ih =>
    by_cases hk : k = hd.1
    · simp only [keysNodup, List.map_cons, List.nodup_cons] at h
      simp only [keysNodup, aerase, if_pos hk]
      exact h.2
    · simp only [keysNodup, List.map_cons, List.nodup_cons] at h
      simp only [keysNodup, aerase, if_neg hk, List.map_cons, List.nodup_cons]
      refine ⟨fun hmem => ?_, ih h.2⟩
      simp only [List.mem_map] at hmem
      obtain ⟨e, he, hx⟩ := hmem
      exact h.1 (hx ▸ List.mem_map_of_mem _ (mem_aerase e k tl he))


@[simp] theorem countVal_nil [DecidableEq β] (b : β) :
    countVal ([] : List (α × β)) b = 0 := rfl

theorem countVal_cons [DecidableEq β] (e : α × β) (l : List (α × β)) (b : β) :
    countVal (e :: l) b = (if e.2 = b then 1 else 0) + countVal l b := by
  by_cases h : e.2 = b <;> simp [countVal, List.filter, h, Nat.add_comm]

theorem countVal_pos_of_mem [DecidableEq β] (e : α × β) (l : List (α × β)) (h : e ∈ l) :
    0 < countVal l e.2 := by
  induction l with
  | nil => simp at h
  | cons hd tl ih =>
    rcases List.mem_cons.1 h with h | h
    · subst h
      simp [countVal_cons]
    · have := ih h
      rw [countVal_cons]
      omega

theorem countVal_aset_le [DecidableEq β] (k : α) (v : β) (l : List (α × β)) (b : β) :
    countVal (aset k v l) b ≤ countVal l b + (if v = b then 1 else 0) := by
  induction l with
  | nil => by_cases h : v = b <;> simp [aset, countVal_cons, h]
  | cons hd tl ih =>
    by_cases hk : k = hd.1
    · simp only [aset, if_pos hk, countVal_cons]
      by_cases hv : v = b <;> by_cases hh : hd.2 = b <;> simp [hv, hh] <;> omega
    · simp only [aset, if_neg hk, countVal_cons]
      omega

theorem countVal_aerase [DecidableEq β] (k : α) (l : List (α × β)) (r : β)
    (h : aget k l = some r) :
    countVal (aerase k l) r = countVal l r - 1 ∧
      ∀ b, b ≠ r → countVal (aerase k l) b = countVal l b := by
  induction l with
  | nil => simp [aget] at h
  | cons hd tl ih =>
    by_cases hk : k = hd.1
    · have h' : hd.2 = r := by simpa [aget, hk] using h
      simp only [aerase, if_pos hk]
      constructor
      · rw [countVal_cons, if_pos h']; omega
      · intro b hb
        rw [countVal_cons, if_neg (fun (hc : hd.2 = b) => hb (hc ▸ h'))]
        omega
    · simp only [aget, if_neg hk] at h
      simp only [aerase, if_neg hk]
      obtain ⟨ih1, ih2⟩ := ih h
      constructor
      · rw [countVal_cons, countVal_cons, ih1]
        have hpos : 0 < countVal tl r := countVal_pos_of_mem (k, r) tl (aget_mem k r tl h)
        by_cases hh : hd.2 = r <;> simp [hh] <;> omega
      · intro b hb
        rw [countVal_cons, countVal_cons, ih2 b hb]

theorem countVal_pos_exists [DecidableEq β] (l : List (α × β)) (b : β)
    (h : 0 < countVal l b) : ∃ e, e ∈ l ∧ e.2 = b := by
  induction l with
  | nil => simp [countVal] at h
  | cons hd tl ih =>
    rw [countVal_cons] at h
    by_cases hh : hd.2 = b
    · exact ⟨hd, List.mem_cons_self _ _, hh⟩
    · simp only [if_neg hh, Nat.zero_add] at h
      obtain ⟨e, he, hb⟩ := ih h
      exact ⟨e, List.mem_cons_of_mem _ he, hb⟩


-- ## Cooldown window lemmas

/-- First increment on a fresh state: starts the window at `t1` and counts 1. -/
theorem cooldownCheckInc_first (N : Nat) (T r0 t1 : Rat) (hN : 0 < N) :
    cooldownCheckInc ⟨0, (N : Int), T, r0⟩ t1 = (none, ⟨1, (N : Int), T, t1 + T⟩) := by
  have hNlim : ((N : Int)) ≠ -1 := by omega
  have hge : ¬ (((0 : Nat) : Int) ≥ (N : Int) ∧ r0 - t1 > 0) := by
    rintro ⟨h1, _⟩
    omega
  have hlt : ((0 : Nat) : Int) < (N : Int) := by exact_mod_cast hN
  simp [cooldownCheckInc, Cooldown.must_wait_for, Cooldown.increment, hNlim, hge, hlt]
  rw [if_neg (fun h => absurd h.1 (by omega : ¬ N = 0))]
  unfold Cooldown.bump
  split_ifs with h
  · rfl
  · exfalso
    exact h hlt

/-- Increments 2..N inside the window neither wait nor move `resets_at`. -/
theorem runCheckInc_fill (N : Nat) (T t1 : Rat) (ts : List Rat) :
    ∀ k : Nat, 0 < k → k + ts.length = N →
      (∀ t ∈ ts, t1 ≤ t ∧ t < t1 + T) →
      runCheckInc ⟨k, (N : Int), T, t1 + T⟩ ts =
        (List.replicate ts.length none, ⟨N, (N : Int), T, t1 + T⟩) := by
  induction ts with
  | nil =>
    intro k hk hlen _
    simp only [List.length_nil, Nat.add_zero] at hlen
    subst hlen
    simp [runCheckInc]
  | cons t ts ih =>
    intro k hk hlen hin
    obtain ⟨ht1, ht2⟩ := hin t (List.mem_cons_self _ _)
    have hkN : k < N := by simp only [List.length_cons] at hlen; omega
    have hNlim : ((N : Int)) ≠ -1 := by omega
    have hklt : ((k : Int)) < (N : Int) := by exact_mod_cast hkN
    have hnwait : ¬ (((k : Nat) : Int) ≥ (N : Int) ∧ t1 + T - t > 0) := by
      rintro ⟨h1, _⟩
      omega
    have hk0 : ¬ (k = 0) := by omega
    have hrt : ¬ (t ≥ t1 + T) := not_le.2 ht2
    have hmw : (⟨k, (N : Int), T, t1 + T⟩ : Cooldown).must_wait_for t = none := by
      unfold Cooldown.must_wait_for
      rw [if_neg hNlim, if_neg hnwait]
    have hincr : (⟨k, (N : Int), T, t1 + T⟩ : Cooldown).increment t =
        ⟨k + 1, (N : Int), T, t1 + T⟩ := by
      unfold Cooldown.increment
      rw [if_neg hNlim, if_neg hk0, if_neg hrt]
      unfold Cooldown.bump
      split_ifs with h
      · rfl
      · exact absurd hklt h
    have hstep : cooldownCheckInc ⟨k, (N : Int), T, t1 + T⟩ t =
        (none, ⟨k + 1, (N : Int), T, t1 + T⟩) := by
      simp [cooldownCheckInc, hmw, hincr]
    have hrec := ih (k + 1) (by omega)
      (by simp only [List.length_cons] at hlen; omega)
      (fun t' ht' => hin t' (List.mem_cons_of_mem _ ht'))
    simp [runCheckInc, hstep, hrec, List.replicate_succ]

/-- C1: for a cooldown bucket with `limit = N` and `window = T` and a fixed
`(bucket_id, context)` key, `check_cooldown` with `increment = true` acts on
the keyed state as `cooldownCheckInc` (first conjunct, stated for a bucket
holding the keyed state); the first `N` incrementing calls within a
`T`-length window all return `none` and leave the counter at `N` with the
window anchored at the first call; the `(N+1)`-th call within the window
returns the positive remaining wait, which is at most `T`; and once
`now ≥ resets_at`, the next incrementing call returns `none` and starts a
fresh window: counter reset to 0 then incremented to 1, `resets_at` set to
`now + T`. -/
theorem claim_C1 (N : Nat) (T r0 : Rat) (hN : 0 < N) (hT : 0 < T) :
    (∀ (m : CooldownManager) (bid : String) (ctx : Ctx) (now l : Rat) (li : Int)
       (c : Cooldown), aget bid m.buckets = some (.global li l c) →
       m.check_cooldown bid ctx true now =
         ((cooldownCheckInc c now).1,
          { m with buckets := aset bid (.global li l (cooldownCheckInc c now).2) m.buckets })) ∧
    (∀ (t1 : Rat) (ts : List Rat), ts.length + 1 = N →
       (∀ t ∈ ts, t1 ≤ t ∧ t < t1 + T) →
       runCheckInc ⟨0, (N : Int), T, r0⟩ (t1 :: ts) =
         (List.replicate N none, ⟨N, (N : Int), T, t1 + T⟩)) ∧
    (∀ t1 t : Rat, t1 ≤ t → t < t1 + T →
       cooldownCheckInc ⟨N, (N : Int), T, t1 + T⟩ t =
         (some (t1 + T - t), ⟨N, (N : Int), T, t1 + T⟩) ∧
       0 < t1 + T - t ∧ t1 + T - t ≤ T) ∧
    (∀ (c : Cooldown) (t : Rat), c.limit = (N : Int) → c.reset_after = T →
       c.resets_at ≤ t → cooldownCheckInc c t = (none, ⟨1, (N : Int), T, t + T⟩)) := by
  refine ⟨?_, ?_, ?_, ?_⟩
  · intro m bid ctx now l li c hb
    cases hw : c.must_wait_for now with
    | some w =>
      simp [CooldownManager.check_cooldown, CooldownManager.get_or_default, hb,
        CdResource.into_inner, cooldownCheckInc, hw]
    | none =>
      simp [CooldownManager.check_cooldown, CooldownManager.get_or_default, hb,
        CdResource.into_inner, cooldownCheckInc, hw]
  · intro t1 ts hlen hin
    have h1 := cooldownCheckInc_first N T r0 t1 hN
    have h2 := runCheckInc_fill N T t1 ts 1 one_pos (by omega) hin
    have hstep : runCheckInc ⟨0, (N : Int), T, r0⟩ (t1 :: ts) =
        (none :: List.replicate ts.length none, ⟨N, (N : Int), T, t1 + T⟩) := by
      simp only [runCheckInc, h1, h2]
    rw [hstep, ← hlen, List.replicate_succ]
  · intro t1 t h1 h2
    have hNlim : ((N : Int)) ≠ -1 := by omega
    have hw : t1 + T - t > 0 := by linarith
    have hge : ((N : Nat) : Int) ≥ (N : Int) := le_refl _
    refine ⟨?_, by linarith, by linarith⟩
    simp [cooldownCheckInc, Cooldown.must_wait_for, hNlim, hge, hw]
  · intro c t hl hra hrt
    have hNlim : c.limit ≠ -1 := by rw [hl]; omega
    have hnw : ¬ ((c.counter : Int) ≥ c.limit ∧ c.resets_at - t > 0) := by
      rintro ⟨_, hgt⟩
      have : c.resets_at > t := by linarith
      exact absurd hrt (not_le.2 this)
    have hmw : c.must_wait_for t = none := by
      simp only [Cooldown.must_wait_for, if_neg hNlim]
      rw [if_neg hnw]
    have hinc : c.increment t = ⟨1, (N : Int), T, t + T⟩ := by
      by_cases hc0 : c.counter = 0
      · simp [Cooldown.increment, Cooldown.bump, hNlim, hc0, hl, hra]
        omega
      · have hge2 : t ≥ c.resets_at := hrt
        simp [Cooldown.increment, Cooldown.bump, hNlim, hc0, hge2, hl, hra]
        omega
    simp [cooldownCheckInc, hmw, hinc]

/-- Witness for C1 at `N = 2`, `T = 5` (bridge instance at the concrete
manager `mgA`). -/
theorem claim_C1_witness :
    (mgA.check_cooldown "g" ctxA true 7 =
      ((cooldownCheckInc ⟨0, 1, 5, 5⟩ 7).1,
       { mgA with
          buckets := aset "g" (CdResource.global 1 5 (cooldownCheckInc ⟨0, 1, 5, 5⟩ 7).2)
            mgA.buckets })) ∧
    (runCheckInc ⟨0, ((2 : Nat) : Int), 5, 0⟩ [1, 2] =
      (List.replicate 2 none, ⟨2, ((2 : Nat) : Int), 5, 1 + 5⟩)) ∧
    (cooldownCheckInc ⟨2, ((2 : Nat) : Int), 5, 1 + 5⟩ 3 =
      (some (1 + 5 - 3), ⟨2, ((2 : Nat) : Int), 5, 1 + 5⟩) ∧
      0 < 1 + 5 - (3 : Rat) ∧ 1 + 5 - (3 : Rat) ≤ 5) ∧
    (cooldownCheckInc ⟨0, ((2 : Nat) : Int), 5, 0⟩ 7 =
      (none, ⟨1, ((2 : Nat) : Int), 5, 7 + 5⟩)) := by
  obtain ⟨hb, h1, h2, h3⟩ := claim_C1 2 5 0 (by norm_num) (by norm_num)
  refine ⟨?_, ?_, ?_, ?_⟩
  · exact hb mgA "g" ctxA 7 5 1 ⟨0, 1, 5, 5⟩ (by simp [mgA, aget])
  · exact h1 1 [2] (by norm_num)
      (by intro t ht; simp at ht; subst ht; constructor <;> norm_num)
  · exact h2 1 3 (by norm_num) (by norm_num)
  · exact h3 ⟨0, ((2 : Nat) : Int), 5, 0⟩ 7 rfl rfl (by norm_num)

/-- C4: `check_cooldown` with `increment = false` is pure: it never creates
bucket or per-key state (the manager is returned unchanged), returns `none`
whenever the bucket or its keyed state does not exist, and otherwise returns
the existing state's `must_wait_for()`. -/
theorem claim_C4 (m : CooldownManager) (bucket_id : String) (ctx : Ctx) (now : Rat) :
    (m.check_cooldown bucket_id ctx false now).2 = m ∧
    (aget bucket_id m.buckets = none →
      (m.check_cooldown bucket_id ctx false now).1 = none) ∧
    (∀ b, aget bucket_id m.buckets = some b →
      (b.try_into_inner ctx = none →
        (m.check_cooldown bucket_id ctx false now).1 = none) ∧
      (∀ c, b.try_into_inner ctx = some c →
        (m.check_cooldown bucket_id ctx false now).1 = c.must_wait_for now)) := by
  refine ⟨?_, ?_, ?_⟩
  · cases hb : aget bucket_id m.buckets with
    | none => simp [CooldownManager.check_cooldown, hb]
    | some b =>
      cases hc : b.try_into_inner ctx with
      | none => simp [CooldownManager.check_cooldown, hb, hc]
      | some c => simp [CooldownManager.check_cooldown, hb, hc]
  · intro hb
    simp [CooldownManager.check_cooldown, hb]
  · intro b hb
    constructor
    · intro hc
      simp [CooldownManager.check_cooldown, hb, hc]
    · intro c hc
      simp [CooldownManager.check_cooldown, hb, hc]

/-- Witness for C4 at a concrete manager, bucket id and context. -/
theorem claim_C4_witness :
    (mgA.check_cooldown "unseen" ctxA false 3).2 = mgA ∧
    (mgA.check_cooldown "unseen" ctxA false 3).1 = none ∧
    (mgA.check_cooldown "g" ctxA false 3).1 =
      Cooldown.must_wait_for ⟨0, 1, 5, 5⟩ 3 := by
  refine ⟨(claim_C4 mgA "unseen" ctxA 3).1,
          (claim_C4 mgA "unseen" ctxA 3).2.1 (by simp [mgA, aget]),
          ((claim_C4 mgA "g" ctxA 3).2.2 (CdResource.global 1 5 ⟨0, 1, 5, 5⟩)
            (by simp [mgA, aget])).2 ⟨0, 1, 5, 5⟩ (by simp [CdResource.try_into_inner])⟩

/-- C5: `_ConcurrencyLimit.release` raises the release-without-acquire
`RuntimeError` exactly when the counter is 0 and the limit is finite; with a
positive counter it decrements; with `limit = -1` it never raises and is a
no-op at counter 0. -/
theorem claim_C5 (c : ConcurrencyLimit) :
    (c.release = none ↔ c.counter = 0 ∧ c.limit ≠ -1) ∧
    (0 < c.counter → c.release = some { c with counter := c.counter - 1 }) ∧
    (c.limit = -1 → c.release ≠ none ∧ (c.counter = 0 → c.release = some c)) := by
  refine ⟨?_, ?_, ?_⟩
  · constructor
    · intro h
      by_cases h1 : c.counter > 0
      · simp [ConcurrencyLimit.release, h1] at h
      · by_cases h2 : c.limit = -1
        · simp [ConcurrencyLimit.release, h1, h2] at h
        · exact ⟨by omega, h2⟩
    · rintro ⟨h1, h2⟩
      simp [ConcurrencyLimit.release, h1, h2]
  · intro h
    simp [ConcurrencyLimit.release, h]
  · intro h2
    by_cases h1 : c.counter > 0
    · simp [ConcurrencyLimit.release, h1]
      intro h0
      omega
    · have h0 : c.counter = 0 := by omega
      simp [ConcurrencyLimit.release, h0, h2]

/-- Witness for C5 on the three concrete branch representatives. -/
theorem claim_C5_witness :
    (ConcurrencyLimit.release ⟨0, 2⟩ = none ↔ (0 : Nat) = 0 ∧ (2 : Int) ≠ -1) ∧
    ConcurrencyLimit.release ⟨3, 2⟩ = some ⟨2, 2⟩ ∧
    ConcurrencyLimit.release ⟨0, -1⟩ ≠ none := by
  refine ⟨(claim_C5 ⟨0, 2⟩).1, ?_, ((claim_C5 ⟨0, -1⟩).2.2 rfl).1⟩
  have h := (claim_C5 ⟨3, 2⟩).2.1 (by norm_num)
  simpa using h

/-- C3: the counter-bounds invariant `0 ≤ counter ≤ limit` (for finite
limits) holds for every freshly constructed state with a non-negative limit
and is preserved by `increment` (at any instant), by `acquire` and by a
non-raising `release`, hence by arbitrary sequences of those calls
(`must_wait_for` and `has_expired` are pure queries and leave the state
untouched by definition). -/
theorem claim_C3 :
    (∀ (l : Int) (ra now : Rat), 0 ≤ l → CdInv (Cooldown.make l ra now)) ∧
    (∀ (c : Cooldown) (now : Rat), CdInv c → CdInv (c.increment now)) ∧
    (∀ (c : Cooldown) (ts : List Rat), CdInv c → CdInv (runIncrements c ts)) ∧
    (∀ l : Int, 0 ≤ l → CcInv ⟨0, l⟩) ∧
    (∀ c : ConcurrencyLimit, CcInv c → CcInv c.acquire.2) ∧
    (∀ c c' : ConcurrencyLimit, CcInv c → c.release = some c' → CcInv c') ∧
    (∀ (c : ConcurrencyLimit) (ops : List Bool), CcInv c → CcInv (runCcOps c ops)) := by
  have hlimpres : ∀ (c : Cooldown) (now : Rat), (c.increment now).limit = c.limit := by
    intro c now
    unfold Cooldown.increment Cooldown.bump
    split_ifs <;> rfl
  have hinc : ∀ (c : Cooldown) (now : Rat), CdInv c → CdInv (c.increment now) := by
    intro c now h hlim
    rw [hlimpres] at hlim
    have hb := h hlim
    rw [hlimpres]
    unfold Cooldown.increment Cooldown.bump
    rw [if_neg hlim]
    split_ifs <;> simp_all <;> omega
  have hacq2 : ∀ c : ConcurrencyLimit,
      c.acquire.2 = if (c.counter : Int) < c.limit then { c with counter := c.counter + 1 }
                    else c := by
    intro c
    unfold ConcurrencyLimit.acquire
    split_ifs <;> rfl
  have hacq : ∀ c : ConcurrencyLimit, CcInv c → CcInv c.acquire.2 := by
    intro c h
    rw [hacq2]
    by_cases hlt : (c.counter : Int) < c.limit
    · rw [if_pos hlt]
      intro hlim
      simp at hlim ⊢
      have := h hlim
      omega
    · rw [if_neg hlt]
      exact h
  have hrel : ∀ c c' : ConcurrencyLimit, CcInv c → c.release = some c' → CcInv c' := by
    intro c c' h hr hlim
    unfold ConcurrencyLimit.release at hr
    by_cases h1 : c.counter > 0
    · rw [if_pos h1] at hr
      have hc : c' = { c with counter := c.counter - 1 } := by
        exact (Option.some.inj hr).symm
      subst hc
      simp at hlim ⊢
      have := h hlim
      omega
    · by_cases h2 : c.limit = -1
      · rw [if_neg h1, if_pos h2] at hr
        have hc : c' = c := (Option.some.inj hr).symm
        subst hc
        exact absurd h2 hlim
      · rw [if_neg h1, if_neg h2] at hr
        exact absurd hr (by simp)
  refine ⟨?_, hinc, ?_, ?_, hacq, hrel, ?_⟩
  · intro l ra now hl hlim
    simp [Cooldown.make] at hlim ⊢
    exact hl
  · intro c ts
    induction ts generalizing c with
    | nil => intro h; simpa [runIncrements] using h
    | cons t ts ih =>
      intro h
      exact ih _ (hinc c t h)
  · intro l hl hlim
    simpa using hl
  · intro c ops
    induction ops generalizing c with
    | nil => intro h; simpa [runCcOps] using h
    | cons op ops ih =>
      intro h
      cases op with
      | true => exact ih _ (hacq c h)
      | false =>
        cases hr : c.release with
        | none => simpa [runCcOps, hr] using ih _ h
        | some c' => simpa [runCcOps, hr] using ih _ (hrel c c' h hr)

/-- Witness for C3 at concrete states and call sequences. -/
theorem claim_C3_witness :
    CdInv (Cooldown.make 2 5 0) ∧
    CdInv (Cooldown.increment ⟨1, 2, 5, 5⟩ 1) ∧
    CdInv (runIncrements (Cooldown.make 2 5 0) [1, 2, 3, 9]) ∧
    CcInv (⟨0, (3 : Int)⟩ : ConcurrencyLimit) ∧
    CcInv (ConcurrencyLimit.acquire ⟨2, 3⟩).2 ∧
    CcInv (⟨1, 3⟩ : ConcurrencyLimit) ∧
    CcInv (runCcOps ⟨0, 3⟩ [true, true, false, true]) := by
  obtain ⟨h1, h2, h3, h4, h5, h6, h7⟩ := claim_C3
  exact ⟨h1 2 5 0 (by norm_num),
         h2 ⟨1, 2, 5, 5⟩ 1 (by intro h; constructor <;> norm_num),
         h3 (Cooldown.make 2 5 0) [1, 2, 3, 9] (h1 2 5 0 (by norm_num)),
         h4 3 (by norm_num),
         h5 ⟨2, 3⟩ (by intro h; constructor <;> norm_num),
         h6 ⟨2, 3⟩ ⟨1, 3⟩ (by intro h; constructor <;> norm_num)
           (by simp [ConcurrencyLimit.release]),
         h7 ⟨0, 3⟩ [true, true, false, true] (h4 3 (by norm_num))⟩

/-- C10: an unlimited (`limit = -1`) concurrency state, as installed by
`disable_bucket`, keeps its counter at 0 under every sequence of
`acquire`/`release` calls; `acquire` returns `true` without incrementing,
`release` takes the unlimited no-op branch, the state always reports
`has_expired()` (counter is 0), and yet a global-topology bucket's
`cleanup` is a no-op so the state is never pruned. -/
theorem claim_C10 :
    (∀ ops : List Bool, runCcOps ⟨0, -1⟩ ops = ⟨0, -1⟩) ∧
    ConcurrencyLimit.acquire ⟨0, -1⟩ = (true, ⟨0, -1⟩) ∧
    ConcurrencyLimit.release ⟨0, -1⟩ = some ⟨0, -1⟩ ∧
    ConcurrencyLimit.has_expired ⟨0, -1⟩ = true ∧
    (∀ (l : Int) (ref : Nat) (heap : List (Nat × ConcurrencyLimit)),
      CcResource.cleanup (.global l ref) heap = .global l ref) := by
  have hacq : ConcurrencyLimit.acquire ⟨0, -1⟩ = (true, ⟨0, -1⟩) := by
    simp [ConcurrencyLimit.acquire]
  have hrel : ConcurrencyLimit.release ⟨0, -1⟩ = some ⟨0, -1⟩ := by
    simp [ConcurrencyLimit.release]
  refine ⟨?_, hacq, hrel, rfl, fun l ref heap => rfl⟩
  intro ops
  induction ops with
  | nil => rfl
  | cons op ops ih =>
    cases op with
    | true => simpa [runCcOps, hacq] using ih
    | false => simpa [runCcOps, hrel] using ih

/-- C6: manager-level `release` pops the ledger entry for
`(bucket_id, context identity)`; when an entry is present it calls
`release()` on exactly the recorded state (the ledger reference — no key
re-resolution, and only that heap cell changes, with buckets and template
untouched); when no entry is present the call is a no-op returning the
manager unchanged and raising no error. -/
theorem claim_C6 (m : ConcurrencyManager) (bucket_id : String) (ctx : Ctx) :
    (aget (bucket_id, ctx) m.acquiring_ctxs = none →
      m.release bucket_id ctx = some m) ∧
    (∀ ref, aget (bucket_id, ctx) m.acquiring_ctxs = some ref →
      ((m.deref ref).release = none → m.release bucket_id ctx = none) ∧
      (∀ s', (m.deref ref).release = some s' →
        m.release bucket_id ctx =
          some { m with
                 acquiring_ctxs := aerase (bucket_id, ctx) m.acquiring_ctxs,
                 heap := aset ref s' m.heap })) := by
  constructor
  · intro h
    simp [ConcurrencyManager.release, h]
  · intro ref h
    constructor
    · intro hrel
      have hrel' : ((aget ref m.heap).getD ⟨0, 0⟩).release = none := hrel
      simp [ConcurrencyManager.release, ConcurrencyManager.deref, h, hrel']
    · intro s' hrel
      have hrel' : ((aget ref m.heap).getD ⟨0, 0⟩).release = some s' := hrel
      simp [ConcurrencyManager.release, ConcurrencyManager.deref, h, hrel']

/-- Witness for C6: absent-entry no-op on `("x", ctxA)` and an exact-state
release of the recorded acquisition `("b", ctxA)` of `mcA`. -/
theorem claim_C6_witness :
    mcA.release "x" ctxA = some mcA ∧
    mcA.release "b" ctxA =
      some { mcA with
             acquiring_ctxs := aerase ("b", ctxA) mcA.acquiring_ctxs,
             heap := aset 0 ⟨0, 1⟩ mcA.heap } := by
  constructor
  · exact (claim_C6 mcA "x" ctxA).1 (by simp [mcA, aget])
  · exact ((claim_C6 mcA "b" ctxA).2 0 (by simp [mcA, aget])).2 ⟨0, 1⟩
      (by simp [mcA, ConcurrencyManager.deref, aget, ConcurrencyLimit.release])

/-- C7 counterexample: the claim asserts the state installed by
`disable_bucket` "never expires (`has_expired` is false)", but
`disable_bucket` builds `_Cooldown(limit=-1, reset_after=-1)`, whose
`resets_at` is one unit in the past, so `has_expired()` is already true at
the instant of installation. -/
theorem claim_C7_counterexample :
    (CooldownManager.init.disable_bucket "x" 0).buckets =
      [("x", CdResource.global (-1) (-1) (Cooldown.make (-1) (-1) 0))] ∧
    (Cooldown.make (-1) (-1) 0).has_expired 0 = true := by
  constructor
  · simp [CooldownManager.disable_bucket, CooldownManager.init, aset]
  · norm_num [Cooldown.make, Cooldown.has_expired]

/-- C7 (amended): after `disable_bucket(bucket_id)` the id maps to a
Global-topology bucket whose singleton state has `limit = -1`; that state
reports `has_expired()` as true from installation onwards (not false, as
claimed), but the Global store's `cleanup` is a no-op so it is never
pruned; every subsequent `check_cooldown` (incrementing or not) returns
`none` and `try_acquire` on a disabled concurrency bucket returns `true`
for every context; `disable_bucket("default")` also replaces the default
template, affecting ids materialized afterwards while ids materialized
before keep their buckets. -/
theorem claim_C7_amended (m : CooldownManager) (bucket_id : String) (now : Rat) :
    (aget bucket_id (m.disable_bucket bucket_id now).buckets =
      some (CdResource.global (-1) (-1) (Cooldown.make (-1) (-1) now))) ∧
    (∀ t : Rat, now - 1 ≤ t → (Cooldown.make (-1) (-1) now).has_expired t = true) ∧
    (∀ t : Rat, CdResource.cleanup
        (CdResource.global (-1) (-1) (Cooldown.make (-1) (-1) now)) t =
      CdResource.global (-1) (-1) (Cooldown.make (-1) (-1) now)) ∧
    (∀ (ctx : Ctx) (t : Rat) (inc : Bool),
      ((m.disable_bucket bucket_id now).check_cooldown bucket_id ctx inc t).1 = none) ∧
    (∀ (mc : ConcurrencyManager) (bid2 : String) (ctx : Ctx),
      ((mc.disable_bucket bid2).try_acquire bid2 ctx).1 = true) ∧
    (bucket_id = "default" →
      (m.disable_bucket bucket_id now).default_bucket_template =
        CdResource.global (-1) (-1) (Cooldown.make (-1) (-1) now) ∧
      (∀ (bid2 : String) (ctx : Ctx) (t : Rat),
        aget bid2 (m.disable_bucket bucket_id now).buckets = none →
        ((m.disable_bucket bucket_id now).check_cooldown bid2 ctx true t).1 = none)) ∧
    (∀ bid2 : String, bid2 ≠ bucket_id →
      aget bid2 (m.disable_bucket bucket_id now).buckets = aget bid2 m.buckets) := by
  have hbk : aget bucket_id (m.disable_bucket bucket_id now).buckets =
      some (CdResource.global (-1) (-1) (Cooldown.make (-1) (-1) now)) := by
    unfold CooldownManager.disable_bucket
    split_ifs <;> simp [aget_aset_self]
  refine ⟨hbk, ?_, ?_, ?_, ?_, ?_, ?_⟩
  · intro t ht
    simp [Cooldown.make, Cooldown.has_expired]
    linarith
  · intro t
    rfl
  · intro ctx t inc
    cases inc with
    | true =>
      simp [CooldownManager.check_cooldown, CooldownManager.get_or_default, hbk,
        CdResource.into_inner, Cooldown.must_wait_for, Cooldown.increment,
        Cooldown.make, Cooldown.bump]
    | false =>
      simp [CooldownManager.check_cooldown, hbk, CdResource.try_into_inner,
        Cooldown.must_wait_for, Cooldown.make]
  · intro mc bid2 ctx
    unfold ConcurrencyManager.disable_bucket
    by_cases hd : bid2 = "default"
    · subst hd
      simp only [if_pos rfl]
      by_cases hl : (aget ("default", ctx)
          (({ mc with
              heap := aset mc.nextRef ⟨0, -1⟩ mc.heap,
              nextRef := mc.nextRef + 1,
              buckets := aset "default" (CcResource.global (-1) mc.nextRef) mc.buckets
            } : ConcurrencyManager).acquiring_ctxs)).isSome
      · simp [ConcurrencyManager.try_acquire, ConcurrencyManager.alloc,
          CcResource.copy, aget_aset_self, hl]
      · simp [ConcurrencyManager.try_acquire, ConcurrencyManager.alloc,
          CcResource.copy, aget_aset_self, hl, ConcurrencyManager.acquireIn,
          CcResource.into_inner, ConcurrencyManager.deref,
          aget_aset_ne _ _ _ _ (by omega : mc.nextRef ≠ mc.nextRef + 1),
          ConcurrencyLimit.acquire]
    · simp only [if_neg hd]
      by_cases hl : (aget (bid2, ctx)
          (({ mc with
              heap := aset mc.nextRef ⟨0, -1⟩ mc.heap,
              nextRef := mc.nextRef + 1,
              buckets := aset bid2 (CcResource.global (-1) mc.nextRef) mc.buckets
            } : ConcurrencyManager).acquiring_ctxs)).isSome
      · simp [ConcurrencyManager.try_acquire, ConcurrencyManager.alloc,
          aget_aset_self, hl]
      · simp [ConcurrencyManager.try_acquire, ConcurrencyManager.alloc,
          aget_aset_self, hl, ConcurrencyManager.acquireIn,
          CcResource.into_inner, ConcurrencyManager.deref,
          ConcurrencyLimit.acquire]
  · intro hd
    subst hd
    constructor
    · simp [CooldownManager.disable_bucket, CdResource.copy]
    · intro bid2 ctx t hnone
      have htmpl : (m.disable_bucket "default" now).default_bucket_template =
          CdResource.global (-1) (-1) (Cooldown.make (-1) (-1) now) := by
        simp [CooldownManager.disable_bucket, CdResource.copy]
      simp [CooldownManager.check_cooldown, CooldownManager.get_or_default, hnone,
        htmpl, CdResource.copy, CdResource.into_inner,
        Cooldown.must_wait_for, Cooldown.increment, Cooldown.make, Cooldown.bump]
  · intro bid2 hne
    unfold CooldownManager.disable_bucket
    split_ifs <;> simp [aget_aset_ne _ _ _ _ hne]

/-- Witness for C7 (amended) at a concrete manager and instant. -/
theorem claim_C7_amended_witness :
    (aget "x" (CooldownManager.init.disable_bucket "x" 0).buckets =
      some (CdResource.global (-1) (-1) (Cooldown.make (-1) (-1) 0))) ∧
    (Cooldown.make (-1) (-1) 0).has_expired 0 = true ∧
    ((CooldownManager.init.disable_bucket "x" 0).check_cooldown "x" ctxA true 3).1 =
      none ∧
    ((ConcurrencyManager.init.disable_bucket "y").try_acquire "y" ctxA).1 = true ∧
    aget "other" (CooldownManager.init.disable_bucket "x" 0).buckets =
      aget "other" CooldownManager.init.buckets := by
  obtain ⟨h1, h2, _, h4, h5, _, h7⟩ :=
    claim_C7_amended CooldownManager.init "x" 0
  exact ⟨h1, h2 0 (by norm_num), h4 ctxA 3 true, h5 ConcurrencyManager.init "y" ctxA,
         h7 "other" (by simp)⟩

/-- C8: prototype persistence — an unknown bucket id is materialized on
first use as a clone of the default template current at that moment and is
stored under the id; a later `set_bucket("default", ...)` or
`disable_bucket("default")` replaces the template (for ids materialized
afterwards) without altering the bucket already stored under any other id. -/
theorem claim_C8 (m : CooldownManager) (bucket_id : String) (now : Rat) :
    (aget bucket_id m.buckets = none →
      (m.get_or_default bucket_id now).1 = m.default_bucket_template.copy now ∧
      aget bucket_id (m.get_or_default bucket_id now).2.buckets =
        some (m.default_bucket_template.copy now)) ∧
    (bucket_id ≠ "default" →
      (∀ (res : BucketResource) (l : Int) (ra t : Rat) (m2 : CooldownManager),
        m.set_bucket "default" res l ra t = some m2 →
          m2.default_bucket_template = (toCdBucket res l ra t).copy t ∧
          aget bucket_id m2.buckets = aget bucket_id m.buckets) ∧
      (∀ t : Rat,
        (m.disable_bucket "default" t).default_bucket_template =
          (CdResource.global (-1) (-1) (Cooldown.make (-1) (-1) t)).copy t ∧
        aget bucket_id (m.disable_bucket "default" t).buckets =
          aget bucket_id m.buckets)) := by
  constructor
  · intro hnone
    unfold CooldownManager.get_or_default
    rw [hnone]
    simp [aget_aset_self]
  · intro hnd
    constructor
    · intro res l ra t m2 h
      unfold CooldownManager.set_bucket at h
      split_ifs at h with h1 h2 h3
      · have hm2 := (Option.some.inj h).symm
        subst hm2
        exact ⟨rfl, aget_aset_ne _ _ _ _ hnd⟩
      · exact absurd rfl h3
    · intro t
      unfold CooldownManager.disable_bucket
      rw [if_pos rfl]
      exact ⟨rfl, aget_aset_ne _ _ _ _ hnd⟩

/-- Witness for C8: materializing `"foo"` on the fresh manager clones the
initial per-user 2-per-5 template; a later `set_bucket("default", USER, 3, 7)`
or `disable_bucket("default")` replaces the template but leaves `"foo"`'s
lookup unchanged. -/
theorem claim_C8_witness :
    (CooldownManager.init.get_or_default "foo" 0).1 =
      CooldownManager.init.default_bucket_template.copy 0 ∧
    aget "foo" (CooldownManager.init.get_or_default "foo" 0).2.buckets =
      some (CooldownManager.init.default_bucket_template.copy 0) ∧
    (⟨[("default", CdResource.flat .USER 3 7 [])],
        CdResource.flat .USER 3 7 []⟩ : CooldownManager).default_bucket_template =
      (toCdBucket .USER 3 7 1).copy 1 ∧
    aget "foo" (⟨[("default", CdResource.flat .USER 3 7 [])],
        CdResource.flat .USER 3 7 []⟩ : CooldownManager).buckets =
      aget "foo" CooldownManager.init.buckets ∧
    (CooldownManager.init.disable_bucket "default" 2).default_bucket_template =
      (CdResource.global (-1) (-1) (Cooldown.make (-1) (-1) 2)).copy 2 ∧
    aget "foo" (CooldownManager.init.disable_bucket "default" 2).buckets =
      aget "foo" CooldownManager.init.buckets := by
  obtain ⟨ha, hb⟩ := claim_C8 CooldownManager.init "foo" 0
  obtain ⟨ha1, ha2⟩ := ha (by simp [CooldownManager.init, aget])
  obtain ⟨hset, hdis⟩ := hb (by simp)
  have hsome : CooldownManager.init.set_bucket "default" .USER 3 7 1 =
      some ⟨[("default", CdResource.flat .USER 3 7 [])],
            CdResource.flat .USER 3 7 []⟩ := by
    norm_num [CooldownManager.set_bucket, CooldownManager.init, toCdBucket,
      CdResource.copy, aset]
  obtain ⟨h1, h2⟩ := hset .USER 3 7 1 _ hsome
  obtain ⟨h3, h4⟩ := hdis 2
  exact ⟨ha1, ha2, h1, h2, h3, h4⟩

-- ## `into_inner` frame lemmas for concurrency stores

theorem into_inner_ledger (r : CcResource) (ctx : Ctx) (m : ConcurrencyManager) :
    (r.into_inner ctx m).2.2.acquiring_ctxs = m.acquiring_ctxs := by
  cases r with
  | flat res l mapping =>
    unfold CcResource.into_inner
    cases hg : aget (getCtxTarget ctx res) mapping <;>
      simp [hg, ConcurrencyManager.alloc]
  | member l dm mp =>
    unfold CcResource.into_inner
    cases hg : ctx.guildId with
    | none =>
      cases hd : aget ctx.channelId dm <;> simp [hd, ConcurrencyManager.alloc]
    | some g =>
      cases hgm : aget g mp with
      | none => simp [hgm, ConcurrencyManager.alloc]
      | some gm =>
        cases ha : aget ctx.authorId gm <;> simp [hgm, ha, ConcurrencyManager.alloc]
  | global l ref => rfl

theorem into_inner_buckets (r : CcResource) (ctx : Ctx) (m : ConcurrencyManager) :
    (r.into_inner ctx m).2.2.buckets = m.buckets := by
  cases r with
  | flat res l mapping =>
    unfold CcResource.into_inner
    cases hg : aget (getCtxTarget ctx res) mapping <;>
      simp [hg, ConcurrencyManager.alloc]
  | member l dm mp =>
    unfold CcResource.into_inner
    cases hg : ctx.guildId with
    | none =>
      cases hd : aget ctx.channelId dm <;> simp [hd, ConcurrencyManager.alloc]
    | some g =>
      cases hgm : aget g mp with
      | none => simp [hgm, ConcurrencyManager.alloc]
      | some gm =>
        cases ha : aget ctx.authorId gm <;> simp [hgm, ha, ConcurrencyManager.alloc]
  | global l ref => rfl

theorem into_inner_lookup (r : CcResource) (ctx : Ctx) (m : ConcurrencyManager) :
    (r.into_inner ctx m).2.1.lookupRef ctx = some (r.into_inner ctx m).1 := by
  cases r with
  | flat res l mapping =>
    unfold CcResource.into_inner CcResource.lookupRef
    cases hg : aget (getCtxTarget ctx res) mapping <;>
      simp [hg, ConcurrencyManager.alloc, aget_aset_self]
  | member l dm mp =>
    unfold CcResource.into_inner CcResource.lookupRef
    cases hg : ctx.guildId with
    | none =>
      cases hd : aget ctx.channelId dm <;>
        simp [hd, ConcurrencyManager.alloc, aget_aset_self]
    | some g =>
      cases hgm : aget g mp with
      | none => simp [hgm, ConcurrencyManager.alloc, aget_aset_self]
      | some gm =>
        cases ha : aget ctx.authorId gm <;>
          simp [hgm, ha, ConcurrencyManager.alloc, aget_aset_self]
  | global l ref =>
    unfold CcResource.into_inner CcResource.lookupRef
    rfl

theorem into_inner_of_lookup (r : CcResource) (ctx : Ctx) (m : ConcurrencyManager)
    (ref : Nat) (h : r.lookupRef ctx = some ref) : r.into_inner ctx m = (ref, r, m) := by
  cases r with
  | flat res l mapping =>
    simp only [CcResource.lookupRef] at h
    simp [CcResource.into_inner, h]
  | member l dm mp =>
    simp only [CcResource.lookupRef] at h
    cases hg : ctx.guildId with
    | none =>
      have h' : aget ctx.channelId dm = some ref := by rw [hg] at h; exact h
      simp [CcResource.into_inner, hg, h']
    | some g =>
      have h' : (match aget g mp with
                 | some gm => aget ctx.authorId gm
                 | none => none) = some ref := by rw [hg] at h; exact h
      cases hgm : aget g mp with
      | none =>
        have h'' : (none : Option Nat) = some ref := by rw [hgm] at h'; exact h'
        exact absurd h'' (by simp)
      | some gm =>
        have h'' : aget ctx.authorId gm = some ref := by rw [hgm] at h'; exact h'
        simp [CcResource.into_inner, hg, hgm, h'']
  | global l ref' =>
    simp only [CcResource.lookupRef] at h
    simp [CcResource.into_inner, Option.some.inj h]

/-- `acquire` leaves the state unchanged when it fails. -/
theorem acquire_false (c : ConcurrencyLimit) (h : c.acquire.1 = false) :
    c.acquire.2 = c := by
  unfold ConcurrencyLimit.acquire at h ⊢
  split_ifs at h ⊢ <;> simp_all

/-- `copy()` of a concurrency store leaves the ledger untouched. -/
theorem copy_ledger (r : CcResource) (m : ConcurrencyManager) :
    (r.copy m).2.acquiring_ctxs = m.acquiring_ctxs := by
  cases r <;> simp [CcResource.copy, ConcurrencyManager.alloc]

/-- A second `try_acquire` for the same pair right after `acquireIn` is a
no-op returning the same result. -/
theorem acquireIn_idem (m : ConcurrencyManager) (bucket_id : String) (ctx : Ctx)
    (bucket : CcResource)
    (hpair : aget (bucket_id, ctx) m.acquiring_ctxs = none) :
    (m.acquireIn bucket_id ctx bucket).2.try_acquire bucket_id ctx =
      m.acquireIn bucket_id ctx bucket := by
  rcases hI : bucket.into_inner ctx m with ⟨ref, b1, M⟩
  have hled : M.acquiring_ctxs = m.acquiring_ctxs := by
    have h := into_inner_ledger bucket ctx m
    rw [hI] at h
    exact h
  have hlook : ∀ M' : ConcurrencyManager, b1.into_inner ctx M' = (ref, b1, M') := by
    intro M'
    have h := into_inner_lookup bucket ctx m
    rw [hI] at h
    exact into_inner_of_lookup b1 ctx M' ref h
  unfold ConcurrencyManager.acquireIn
  rw [hI]
  dsimp only
  rcases hr : (({ M with buckets := aset bucket_id b1 M.buckets } :
      ConcurrencyManager).deref ref).acquire with ⟨result, s'⟩
  dsimp only
  cases result with
  | true =>
    simp [ConcurrencyManager.try_acquire, aget_aset_self]
  | false =>
    have hs' : s' = ({ M with buckets := aset bucket_id b1 M.buckets } :
        ConcurrencyManager).deref ref := by
      have h2 := acquire_false (({ M with buckets := aset bucket_id b1 M.buckets } :
        ConcurrencyManager).deref ref) (by rw [hr])
      rw [hr] at h2
      exact h2
    subst hs'
    simp only [ConcurrencyManager.deref] at hr
    simp [ConcurrencyManager.try_acquire, aget_aset_self, hled, hpair,
      ConcurrencyManager.acquireIn, hlook, ConcurrencyManager.deref,
      aset_eq_of_aget, hr]

/-- C2: idempotence of acquisition — for any manager whose ledger is
consistent with its bucket map at the queried pair (every ledger entry's
bucket id is materialized; trivially true of reachable states), running
`try_acquire` twice back-to-back for the identical `(bucket_id, ctx)` pair
gives, on the second call, exactly the result of the first and leaves the
manager exactly as the first call left it: a successful acquisition is not
double-counted and a failed one does not consume capacity. -/
theorem claim_C2 (m : ConcurrencyManager) (bucket_id : String) (ctx : Ctx)
    (h : aget (bucket_id, ctx) m.acquiring_ctxs = none ∨
         (aget bucket_id m.buckets).isSome = true) :
    (m.try_acquire bucket_id ctx).2.try_acquire bucket_id ctx =
      m.try_acquire bucket_id ctx := by
  cases hb : aget bucket_id m.buckets with
  | some bucket =>
    by_cases hl : (aget (bucket_id, ctx) m.acquiring_ctxs).isSome
    · have h1 : m.try_acquire bucket_id ctx = (true, m) := by
        simp [ConcurrencyManager.try_acquire, hb, hl]
      rw [h1]
      simp [ConcurrencyManager.try_acquire, hb, hl]
    · have hpair : aget (bucket_id, ctx) m.acquiring_ctxs = none := by
        cases hq : aget (bucket_id, ctx) m.acquiring_ctxs with
        | none => rfl
        | some v => rw [hq] at hl; simp at hl
      have h1 : m.try_acquire bucket_id ctx = m.acquireIn bucket_id ctx bucket := by
        simp [ConcurrencyManager.try_acquire, hb, hl]
      rw [h1]
      exact acquireIn_idem m bucket_id ctx bucket hpair
  | none =>
    have hpair : aget (bucket_id, ctx) m.acquiring_ctxs = none := by
      rcases h with h | h
      · exact h
      · rw [hb] at h
        simp at h
    rcases hc : m.default_bucket_template.copy m with ⟨bucket0, M0⟩
    have hledM0 : M0.acquiring_ctxs = m.acquiring_ctxs := by
      have h2 := copy_ledger m.default_bucket_template m
      rw [hc] at h2
      exact h2
    have h1 : m.try_acquire bucket_id ctx =
        ({ M0 with buckets := aset bucket_id bucket0 M0.buckets } :
          ConcurrencyManager).acquireIn bucket_id ctx bucket0 := by
      simp [ConcurrencyManager.try_acquire, hb, hc]
    rw [h1]
    exact acquireIn_idem _ bucket_id ctx bucket0 (by simpa [hledM0] using hpair)

/-- Witness for C2 on the fresh limiter: two back-to-back acquisitions of
bucket `"b"` for the same context. -/
theorem claim_C2_witness :
    (ConcurrencyManager.init.try_acquire "b" ctxA).2.try_acquire "b" ctxA =
      ConcurrencyManager.init.try_acquire "b" ctxA := by
  exact claim_C2 ConcurrencyManager.init "b" ctxA
    (Or.inl (by simp [ConcurrencyManager.init, aget]))

-- ## Allocation shape of `into_inner` and `copy`

theorem mem_flat_refs (res : BucketResource) (l : Int)
    (mapping : List (Snowflake × Nat)) (x : Nat) :
    x ∈ (CcResource.flat res l mapping).refs ↔ ∃ e, e ∈ mapping ∧ e.2 = x := by
  show x ∈ mapping.map Prod.snd ↔ _
  rw [List.mem_map]

theorem mem_member_refs (l : Int) (dm : List (Snowflake × Nat))
    (mp : List (Snowflake × List (Snowflake × Nat))) (x : Nat) :
    x ∈ (CcResource.member l dm mp).refs ↔
      (∃ e, e ∈ dm ∧ e.2 = x) ∨ ∃ gm, gm ∈ mp ∧ ∃ e, e ∈ gm.2 ∧ e.2 = x := by
  show x ∈ dm.map Prod.snd ++ (mp.map (fun gm => gm.2.map Prod.snd)).flatten ↔ _
  rw [List.mem_append, List.mem_map, List.mem_flatten]
  constructor
  · rintro (⟨e, he, hx⟩ | ⟨ys, hys, hx⟩)
    · exact Or.inl ⟨e, he, hx⟩
    · obtain ⟨gm, hgm, hys⟩ := List.mem_map.1 hys
      subst hys
      obtain ⟨e, he, hx⟩ := List.mem_map.1 hx
      exact Or.inr ⟨gm, hgm, e, he, hx⟩
  · rintro (⟨e, he, hx⟩ | ⟨gm, hgm, e, he, hx⟩)
    · exact Or.inl ⟨e, he, hx⟩
    · exact Or.inr ⟨gm.2.map Prod.snd, List.mem_map.2 ⟨gm, hgm, rfl⟩,
        List.mem_map.2 ⟨e, he, hx⟩⟩

theorem mem_global_refs (l : Int) (ref : Nat) (x : Nat) :
    x ∈ (CcResource.global l ref).refs ↔ x = ref := by
  show x ∈ [ref] ↔ _
  simp

theorem into_inner_spec (r : CcResource) (ctx : Ctx) (m : ConcurrencyManager) :
    ((r.into_inner ctx m).2.2 = m ∧ (r.into_inner ctx m).1 ∈ r.refs) ∨
    ((r.into_inner ctx m).2.2.heap =
        aset m.nextRef ⟨0, r.limitOf⟩ m.heap ∧
     (r.into_inner ctx m).2.2.nextRef = m.nextRef + 1 ∧
     (r.into_inner ctx m).1 = m.nextRef) := by
  cases r with
  | flat res l mapping =>
    cases hg : aget (getCtxTarget ctx res) mapping with
    | some ref =>
      left
      refine ⟨by simp [CcResource.into_inner, hg], ?_⟩
      have h1 : ((CcResource.flat res l mapping).into_inner ctx m).1 = ref := by
        simp [CcResource.into_inner, hg]
      rw [h1, mem_flat_refs]
      exact ⟨(getCtxTarget ctx res, ref), aget_mem _ _ _ hg, rfl⟩
    | none =>
      right
      simp [CcResource.into_inner, hg, ConcurrencyManager.alloc, CcResource.limitOf]
  | member l dm mp =>
    cases hg : ctx.guildId with
    | none =>
      cases hd : aget ctx.channelId dm with
      | some ref =>
        left
        refine ⟨by simp [CcResource.into_inner, hg, hd], ?_⟩
        have h1 : ((CcResource.member l dm mp).into_inner ctx m).1 = ref := by
          simp [CcResource.into_inner, hg, hd]
        rw [h1, mem_member_refs]
        exact Or.inl ⟨(ctx.channelId, ref), aget_mem _ _ _ hd, rfl⟩
      | none =>
        right
        simp [CcResource.into_inner, hg, hd, ConcurrencyManager.alloc,
          CcResource.limitOf]
    | some g =>
      cases hgm : aget g mp with
      | some gm =>
        cases ha : aget ctx.authorId gm with
        | some ref =>
          left
          refine ⟨by simp [CcResource.into_inner, hg, hgm, ha], ?_⟩
          have h1 : ((CcResource.member l dm mp).into_inner ctx m).1 = ref := by
            simp [CcResource.into_inner, hg, hgm, ha]
          rw [h1, mem_member_refs]
          exact Or.inr ⟨(g, gm), aget_mem _ _ _ hgm,
            (ctx.authorId, ref), aget_mem _ _ _ ha, rfl⟩
        | none =>
          right
          simp [CcResource.into_inner, hg, hgm, ha, ConcurrencyManager.alloc,
            CcResource.limitOf]
      | none =>
        right
        simp [CcResource.into_inner, hg, hgm, ConcurrencyManager.alloc,
          CcResource.limitOf]
  | global l ref =>
    left
    refine ⟨rfl, ?_⟩
    have h1 : ((CcResource.global l ref).into_inner ctx m).1 = ref := rfl
    rw [h1, mem_global_refs]

theorem into_inner_refs (r : CcResource) (ctx : Ctx) (m : ConcurrencyManager)
    (x : Nat) (hx : x ∈ (r.into_inner ctx m).2.1.refs) :
    x ∈ r.refs ∨ x = (r.into_inner ctx m).1 := by
  cases r with
  | flat res l mapping =>
    cases hg : aget (getCtxTarget ctx res) mapping with
    | some ref =>
      have hs : ((CcResource.flat res l mapping).into_inner ctx m).2.1 =
          CcResource.flat res l mapping := by
        simp [CcResource.into_inner, hg]
      rw [hs] at hx
      exact Or.inl hx
    | none =>
      have hs : ((CcResource.flat res l mapping).into_inner ctx m).2.1 =
          CcResource.flat res l (aset (getCtxTarget ctx res) m.nextRef mapping) := by
        simp [CcResource.into_inner, hg, ConcurrencyManager.alloc]
      have h1 : ((CcResource.flat res l mapping).into_inner ctx m).1 = m.nextRef := by
        simp [CcResource.into_inner, hg, ConcurrencyManager.alloc]
      rw [hs, mem_flat_refs] at hx
      rw [h1]
      obtain ⟨e, he, hex⟩ := hx
      rcases mem_aset _ _ _ _ he with h | h
      · exact Or.inl ((mem_flat_refs res l mapping x).2 ⟨e, h, hex⟩)
      · right
        rw [← hex, h]
  | member l dm mp =>
    cases hg : ctx.guildId with
    | none =>
      cases hd : aget ctx.channelId dm with
      | some ref =>
        have hs : ((CcResource.member l dm mp).into_inner ctx m).2.1 =
            CcResource.member l dm mp := by
          simp [CcResource.into_inner, hg, hd]
        rw [hs] at hx
        exact Or.inl hx
      | none =>
        have hs : ((CcResource.member l dm mp).into_inner ctx m).2.1 =
            CcResource.member l (aset ctx.channelId m.nextRef dm) mp := by
          simp [CcResource.into_inner, hg, hd, ConcurrencyManager.alloc]
        have h1 : ((CcResource.member l dm mp).into_inner ctx m).1 = m.nextRef := by
          simp [CcResource.into_inner, hg, hd, ConcurrencyManager.alloc]
        rw [hs, mem_member_refs] at hx
        rw [h1]
        rcases hx with ⟨e, he, hex⟩ | ⟨gm, hgm, e, he, hex⟩
        · rcases mem_aset _ _ _ _ he with h | h
          · exact Or.inl ((mem_member_refs l dm mp x).2 (Or.inl ⟨e, h, hex⟩))
          · right
            rw [← hex, h]
        · exact Or.inl ((mem_member_refs l dm mp x).2 (Or.inr ⟨gm, hgm, e, he, hex⟩))
    | some g =>
      cases hgm : aget g mp with
      | some gm =>
        cases ha : aget ctx.authorId gm with
        | some ref =>
          have hs : ((CcResource.member l dm mp).into_inner ctx m).2.1 =
              CcResource.member l dm mp := by
            simp [CcResource.into_inner, hg, hgm, ha]
          rw [hs] at hx
          exact Or.inl hx
        | none =>
          have hs : ((CcResource.member l dm mp).into_inner ctx m).2.1 =
              CcResource.member l dm
                (aset g (aset ctx.authorId m.nextRef gm) mp) := by
            simp [CcResource.into_inner, hg, hgm, ha, ConcurrencyManager.alloc]
          have h1 : ((CcResource.member l dm mp).into_inner ctx m).1 = m.nextRef := by
            simp [CcResource.into_inner, hg, hgm, ha, ConcurrencyManager.alloc]
          rw [hs, mem_member_refs] at hx
          rw [h1]
          rcases hx with ⟨e, he, hex⟩ | ⟨gm', hgm', e, he, hex⟩
          · exact Or.inl ((mem_member_refs l dm mp x).2 (Or.inl ⟨e, he, hex⟩))
          · rcases mem_aset _ _ _ _ hgm' with h | h
            · exact Or.inl ((mem_member_refs l dm mp x).2 (Or.inr ⟨gm', h, e, he, hex⟩))
            · subst h
              rcases mem_aset _ _ _ _ he with h2 | h2
              · exact Or.inl ((mem_member_refs l dm mp x).2
                  (Or.inr ⟨(g, gm), aget_mem _ _ _ hgm, e, h2, hex⟩))
              · right
                rw [← hex, h2]
      | none =>
        have hs : ((CcResource.member l dm mp).into_inner ctx m).2.1 =
            CcResource.member l dm (aset g [(ctx.authorId, m.nextRef)] mp) := by
          simp [CcResource.into_inner, hg, hgm, ConcurrencyManager.alloc]
        have h1 : ((CcResource.member l dm mp).into_inner ctx m).1 = m.nextRef := by
          simp [CcResource.into_inner, hg, hgm, ConcurrencyManager.alloc]
        rw [hs, mem_member_refs] at hx
        rw [h1]
        rcases hx with ⟨e, he, hex⟩ | ⟨gm', hgm', e, he, hex⟩
        · exact Or.inl ((mem_member_refs l dm mp x).2 (Or.inl ⟨e, he, hex⟩))
        · rcases mem_aset _ _ _ _ hgm' with h | h
          · exact Or.inl ((mem_member_refs l dm mp x).2 (Or.inr ⟨gm', h, e, he, hex⟩))
          · subst h
            simp at he
            right
            rw [← hex, he]
  | global l ref =>
    have hs : ((CcResource.global l ref).into_inner ctx m).2.1 =
        CcResource.global l ref := rfl
    rw [hs] at hx
    exact Or.inl hx

theorem copy_spec (r : CcResource) (m : ConcurrencyManager) :
    ((r.copy m).2 = m ∧ (r.copy m).1.refs = []) ∨
    ((r.copy m).2.heap = aset m.nextRef ⟨0, r.limitOf⟩ m.heap ∧
     (r.copy m).2.nextRef = m.nextRef + 1 ∧
     (r.copy m).2.acquiring_ctxs = m.acquiring_ctxs ∧
     (r.copy m).2.buckets = m.buckets ∧
     (r.copy m).1.refs = [m.nextRef]) := by
  cases r with
  | flat res l mapping =>
    left
    exact ⟨rfl, rfl⟩
  | member l dm mp =>
    left
    refine ⟨rfl, ?_⟩
    show ([] : List (Snowflake × Nat)).map Prod.snd ++
      (([] : List (Snowflake × List (Snowflake × Nat))).map
        (fun gm => gm.2.map Prod.snd)).flatten = []
    rfl
  | global l ref =>
    right
    simp [CcResource.copy, ConcurrencyManager.alloc, CcResource.limitOf,
      CcResource.refs]

-- ## Preservation of the concurrency-manager invariant

theorem wf_init : CcWf ConcurrencyManager.init := by
  refine ⟨by simp [keysNodup, ConcurrencyManager.init], ?_, ?_, ?_⟩ <;>
    simp [ConcurrencyManager.init]

/-- Extending the heap with a fresh cell preserves the invariant. -/
theorem wf_extend (m M : ConcurrencyManager) (c : ConcurrencyLimit)
    (hwf : CcWf m)
    (hl : M.acquiring_ctxs = m.acquiring_ctxs)
    (hb : M.buckets = m.buckets)
    (hh : M.heap = aset m.nextRef c m.heap)
    (hn : M.nextRef = m.nextRef + 1) : CcWf M := by
  obtain ⟨w1, w2, w3, w4⟩ := hwf
  refine ⟨by rw [keysNodup, hl]; exact w1, ?_, ?_, ?_⟩
  · intro e he
    rw [hl] at he
    obtain ⟨s, hs, hd⟩ := w2 e he
    have hlt : e.2 < m.nextRef := w3 _ (aget_mem _ _ _ hs)
    refine ⟨s, ?_, by rw [refCount, hl]; exact hd⟩
    rw [hh, aget_aset_ne _ _ _ _ (by omega)]
    exact hs
  · intro p hp
    rw [hh] at hp
    rw [hn]
    rcases mem_aset _ _ _ _ hp with h | h
    · have := w3 _ h
      omega
    · rw [h]
      simp
  · intro b hb2 r hr
    rw [hb] at hb2
    rw [hn]
    have := w4 b hb2 r hr
    omega

/-- Installing a bucket whose references are all allocated preserves the
invariant. -/
theorem wf_install (m : ConcurrencyManager) (bid : String) (b : CcResource)
    (hwf : CcWf m) (hrefs : ∀ r ∈ b.refs, r < m.nextRef) :
    CcWf { m with buckets := aset bid b m.buckets } := by
  obtain ⟨w1, w2, w3, w4⟩ := hwf
  refine ⟨w1, w2, w3, ?_⟩
  intro bb hbb r hr
  rcases mem_aset _ _ _ _ hbb with h | h
  · exact w4 bb h r hr
  · subst h
    exact hrefs r hr

/-- A failed `acquire` writes the state back unchanged and preserves the
invariant. -/
theorem wf_acquire_false (m : ConcurrencyManager) (ref : Nat)
    (hwf : CcWf m) (href : ref < m.nextRef)
    (hr : (m.deref ref).acquire.1 = false) :
    CcWf { m with heap := aset ref (m.deref ref).acquire.2 m.heap } := by
  obtain ⟨w1, w2, w3, w4⟩ := hwf
  have hs2 : (m.deref ref).acquire.2 = m.deref ref := acquire_false _ hr
  rw [hs2]
  cases hg : aget ref m.heap with
  | some s0 =>
    have hd : m.deref ref = s0 := by
      simp [ConcurrencyManager.deref, hg]
    rw [hd, aset_eq_of_aget _ _ _ hg]
    exact ⟨w1, w2, w3, w4⟩
  | none =>
    refine ⟨w1, ?_, ?_, w4⟩
    · intro e he
      obtain ⟨s, hs, hdj⟩ := w2 e he
      have hne : e.2 ≠ ref := by
        intro hEq
        rw [hEq, hg] at hs
        exact absurd hs (by simp)
      exact ⟨s, by rw [aget_aset_ne _ _ _ _ hne]; exact hs, hdj⟩
    · intro p hp
      rcases mem_aset _ _ _ _ hp with h | h
      · exact w3 _ h
      · rw [h]
        exact href

/-- A successful `acquire` with the pair recorded in the ledger preserves
the invariant: the counter rises together with the alias count. -/
theorem wf_acquire_true (m : ConcurrencyManager) (bid : String) (ctx : Ctx)
    (ref : Nat) (hwf : CcWf m) (href : ref < m.nextRef)
    (hr : (m.deref ref).acquire.1 = true) :
    CcWf { m with heap := aset ref (m.deref ref).acquire.2 m.heap,
                  acquiring_ctxs := aset (bid, ctx) ref m.acquiring_ctxs } := by
  obtain ⟨w1, w2, w3, w4⟩ := hwf
  have hcnt : ∀ s0, aget ref m.heap = some s0 → s0.limit ≠ -1 →
      refCount m.acquiring_ctxs ref ≤ s0.counter := by
    intro s0 hs0 hlim
    by_cases h0 : refCount m.acquiring_ctxs ref = 0
    · omega
    · obtain ⟨e0, he0, he0r⟩ := countVal_pos_exists _ _
        (by unfold refCount at h0; omega : 0 < countVal m.acquiring_ctxs ref)
      obtain ⟨s1, hs1, hdj⟩ := w2 e0 he0
      rw [he0r, hs0] at hs1
      have hseq : s1 = s0 := (Option.some.inj hs1).symm
      subst hseq
      rcases hdj with h | h
      · exact absurd h hlim
      · rw [he0r] at h
        exact h
  refine ⟨keysNodup_aset _ _ _ w1, ?_, ?_, w4⟩
  · intro e he
    dsimp only at he ⊢
    -- the updated state behind `ref`
    have hself : aget ref (aset ref (m.deref ref).acquire.2 m.heap) =
        some (m.deref ref).acquire.2 := aget_aset_self _ _ _
    have hbound : ∀ x, refCount (aset (bid, ctx) ref m.acquiring_ctxs) x ≤
        refCount m.acquiring_ctxs x + (if ref = x then 1 else 0) :=
      fun x => countVal_aset_le _ _ _ _
    rcases mem_aset _ _ _ _ he with heL | heq
    · obtain ⟨s0, hs0, hdj⟩ := w2 e heL
      by_cases her : e.2 = ref
      · -- aliases the acquired state
        rw [her]
        refine ⟨(m.deref ref).acquire.2, hself, ?_⟩
        have hd : m.deref ref = s0 := by
          rw [her] at hs0
          simp [ConcurrencyManager.deref, hs0]
        rcases hdj with hlim | hcount
        · -- unlimited state: acquire leaves it unchanged
          left
          have hnlt : ¬ ((s0.counter : Int) < s0.limit) := by
            rw [hlim]
            omega
          have : (m.deref ref).acquire.2 = m.deref ref := by
            unfold ConcurrencyLimit.acquire
            rw [hd]
            rw [if_neg hnlt, if_pos hlim]
          rw [this, hd]
          exact hlim
        · rw [her] at hcount
          unfold ConcurrencyLimit.acquire
          rw [hd]
          by_cases hlt : (s0.counter : Int) < s0.limit
          · rw [if_pos hlt]
            right
            have := hbound ref
            simp at this ⊢
            omega
          · rw [if_neg hlt]
            by_cases hlim : s0.limit = -1
            · rw [if_pos hlim]
              left
              exact hlim
            · -- acquire failed; contradicts hr
              exfalso
              unfold ConcurrencyLimit.acquire at hr
              rw [hd, if_neg hlt, if_neg hlim] at hr
              simp at hr
      · refine ⟨s0, ?_, ?_⟩
        · rw [aget_aset_ne _ _ _ _ her]
          exact hs0
        · rcases hdj with hlim | hcount
          · exact Or.inl hlim
          · right
            have := hbound e.2
            rw [if_neg (fun hc => her hc.symm)] at this
            omega
    · -- the freshly recorded entry
      subst heq
      refine ⟨(m.deref ref).acquire.2, hself, ?_⟩
      cases hg : aget ref m.heap with
      | none =>
        -- dangling reference: acquire on the default cell fails, contradicting hr
        exfalso
        have hd : m.deref ref = ⟨0, 0⟩ := by
          simp [ConcurrencyManager.deref, hg]
        unfold ConcurrencyLimit.acquire at hr
        rw [hd] at hr
        simp at hr
      | some s0 =>
        have hd : m.deref ref = s0 := by
          simp [ConcurrencyManager.deref, hg]
        unfold ConcurrencyLimit.acquire
        rw [hd]
        by_cases hlt : (s0.counter : Int) < s0.limit
        · rw [if_pos hlt]
          right
          have h1 := hbound ref
          have h2 : s0.limit ≠ -1 := by omega
          have h3 := hcnt s0 hg h2
          simp at h1 ⊢
          omega
        · rw [if_neg hlt]
          by_cases hlim : s0.limit = -1
          · rw [if_pos hlim]
            left
            exact hlim
          · exfalso
            unfold ConcurrencyLimit.acquire at hr
            rw [hd, if_neg hlt, if_neg hlim] at hr
            simp at hr
  · intro p hp
    rcases mem_aset _ _ _ _ hp with h | h
    · exact w3 _ h
    · rw [h]
      exact href

theorem wf_acquireIn (m : ConcurrencyManager) (bucket_id : String) (ctx : Ctx)
    (bucket : CcResource) (hwf : CcWf m)
    (hrefs : ∀ r ∈ bucket.refs, r < m.nextRef) :
    CcWf (m.acquireIn bucket_id ctx bucket).2 := by
  rcases hI : bucket.into_inner ctx m with ⟨ref, b1, M⟩
  have hspec := into_inner_spec bucket ctx m
  rw [hI] at hspec
  have hled := into_inner_ledger bucket ctx m
  rw [hI] at hled
  have hbkt := into_inner_buckets bucket ctx m
  rw [hI] at hbkt
  dsimp only at hspec hled hbkt
  have hM : CcWf M ∧ ref < M.nextRef ∧ m.nextRef ≤ M.nextRef := by
    rcases hspec with ⟨hMm, hrm⟩ | ⟨hh, hn, hre⟩
    · subst hMm
      exact ⟨hwf, hrefs ref hrm, le_refl _⟩
    · refine ⟨wf_extend m M ⟨0, bucket.limitOf⟩ hwf hled hbkt hh hn, ?_, ?_⟩
      · rw [hn, hre]
        omega
      · rw [hn]
        omega
  obtain ⟨hwfM, hrefM, hmn⟩ := hM
  have hrefsb1 : ∀ x ∈ b1.refs, x < M.nextRef := by
    intro x hx
    have h2 := into_inner_refs bucket ctx m x (by rw [hI]; exact hx)
    rw [hI] at h2
    dsimp only at h2
    rcases h2 with h | h
    · exact lt_of_lt_of_le (hrefs x h) hmn
    · rw [h]
      exact hrefM
  have hwfMb : CcWf { M with buckets := aset bucket_id b1 M.buckets } :=
    wf_install M bucket_id b1 hwfM hrefsb1
  unfold ConcurrencyManager.acquireIn
  rw [hI]
  dsimp only
  rcases hr : (({ M with buckets := aset bucket_id b1 M.buckets } :
      ConcurrencyManager).deref ref).acquire with ⟨result, s'⟩
  dsimp only
  cases result with
  | false =>
    have h2 : (({ M with buckets := aset bucket_id b1 M.buckets } :
        ConcurrencyManager).deref ref).acquire.2 = s' := by rw [hr]
    have h3 := wf_acquire_false { M with buckets := aset bucket_id b1 M.buckets }
      ref hwfMb hrefM (by rw [hr])
    rw [h2] at h3
    exact h3
  | true =>
    have h2 : (({ M with buckets := aset bucket_id b1 M.buckets } :
        ConcurrencyManager).deref ref).acquire.2 = s' := by rw [hr]
    have h3 := wf_acquire_true { M with buckets := aset bucket_id b1 M.buckets }
      bucket_id ctx ref hwfMb hrefM (by rw [hr])
    rw [h2] at h3
    exact h3

theorem wf_try_acquire (m : ConcurrencyManager) (bucket_id : String) (ctx : Ctx)
    (hwf : CcWf m) : CcWf (m.try_acquire bucket_id ctx).2 := by
  cases hb : aget bucket_id m.buckets with
  | some bucket =>
    by_cases hl : (aget (bucket_id, ctx) m.acquiring_ctxs).isSome
    · have h1 : m.try_acquire bucket_id ctx = (true, m) := by
        simp [ConcurrencyManager.try_acquire, hb, hl]
      rw [h1]
      exact hwf
    · have h1 : m.try_acquire bucket_id ctx = m.acquireIn bucket_id ctx bucket := by
        simp [ConcurrencyManager.try_acquire, hb, hl]
      rw [h1]
      exact wf_acquireIn m bucket_id ctx bucket hwf
        (fun r hr => hwf.2.2.2 _ (aget_mem _ _ _ hb) r hr)
  | none =>
    rcases hc : m.default_bucket_template.copy m with ⟨bucket0, M0⟩
    have hcs := copy_spec m.default_bucket_template m
    rw [hc] at hcs
    dsimp only at hcs
    have h1 : m.try_acquire bucket_id ctx =
        ({ M0 with buckets := aset bucket_id bucket0 M0.buckets } :
          ConcurrencyManager).acquireIn bucket_id ctx bucket0 := by
      simp [ConcurrencyManager.try_acquire, hb, hc]
    rw [h1]
    rcases hcs with ⟨hM0, hrefs0⟩ | ⟨hh, hn, hlg, hbk, hrefs0⟩
    · subst hM0
      refine wf_acquireIn _ bucket_id ctx bucket0
        (wf_install M0 bucket_id bucket0 hwf ?_) ?_
      · intro r hr
        rw [hrefs0] at hr
        simp at hr
      · intro r hr
        rw [hrefs0] at hr
        simp at hr
    · have hwfM0 : CcWf M0 := wf_extend m M0 _ hwf hlg hbk hh hn
      refine wf_acquireIn _ bucket_id ctx bucket0
        (wf_install M0 bucket_id bucket0 hwfM0 ?_) ?_
      · intro r hr
        rw [hrefs0] at hr
        simp at hr
        subst hr
        rw [hn]
        omega
      · intro r hr
        rw [hrefs0] at hr
        simp at hr
        subst hr
        show m.nextRef < M0.nextRef
        rw [hn]
        omega

/-- On a well-formed manager, `release` never raises: the error branch of
`_ConcurrencyLimit.release` is unreachable. -/
theorem release_isSome_of_wf (m : ConcurrencyManager) (hwf : CcWf m)
    (bucket_id : String) (ctx : Ctx) :
    (m.release bucket_id ctx).isSome = true := by
  obtain ⟨w1, w2, w3, w4⟩ := hwf
  cases hl : aget (bucket_id, ctx) m.acquiring_ctxs with
  | none => simp [ConcurrencyManager.release, hl]
  | some ref =>
    have hmem : ((bucket_id, ctx), ref) ∈ m.acquiring_ctxs := aget_mem _ _ _ hl
    obtain ⟨s, hs, hdj⟩ := w2 _ hmem
    dsimp only at hs hdj
    have hd : ({ m with acquiring_ctxs := aerase (bucket_id, ctx) m.acquiring_ctxs } :
        ConcurrencyManager).deref ref = s := by
      simp [ConcurrencyManager.deref, hs]
    have hrel : s.release.isSome = true := by
      unfold ConcurrencyLimit.release
      by_cases h1 : s.counter > 0
      · simp [h1]
      · by_cases h2 : s.limit = -1
        · simp [h1, h2]
        · exfalso
          rcases hdj with h | h
          · exact h2 h
          · have hpos := countVal_pos_of_mem _ _ hmem
            dsimp only at hpos
            unfold refCount at h
            omega
    cases hsr : s.release with
    | none => rw [hsr] at hrel; simp at hrel
    | some s2 => simp [ConcurrencyManager.release, hl, hd, hsr]

theorem wf_release (m : ConcurrencyManager) (bucket_id : String) (ctx : Ctx)
    (m' : ConcurrencyManager) (hwf : CcWf m)
    (h : m.release bucket_id ctx = some m') : CcWf m' := by
  obtain ⟨w1, w2, w3, w4⟩ := hwf
  cases hl : aget (bucket_id, ctx) m.acquiring_ctxs with
  | none =>
    simp [ConcurrencyManager.release, hl] at h
    rw [← h]
    exact ⟨w1, w2, w3, w4⟩
  | some ref =>
    have hmem : ((bucket_id, ctx), ref) ∈ m.acquiring_ctxs := aget_mem _ _ _ hl
    obtain ⟨s, hs, hdj⟩ := w2 _ hmem
    dsimp only at hs hdj
    have hd : ({ m with acquiring_ctxs := aerase (bucket_id, ctx) m.acquiring_ctxs } :
        ConcurrencyManager).deref ref = s := by
      simp [ConcurrencyManager.deref, hs]
    unfold ConcurrencyManager.release at h
    rw [hl] at h
    dsimp only at h
    rw [hd] at h
    cases hsr : s.release with
    | none =>
      rw [hsr] at h
      simp at h
    | some s2 =>
      rw [hsr] at h
      dsimp only at h
      have hm' := (Option.some.inj h).symm
      subst hm'
      obtain ⟨hcnt_eq, hcnt_ne⟩ := countVal_aerase (bucket_id, ctx) m.acquiring_ctxs ref hl
      have hs2 : (s2.limit = s.limit ∧ s.counter > 0 ∧ s2.counter = s.counter - 1) ∨
          (s2 = s ∧ s.limit = -1) := by
        unfold ConcurrencyLimit.release at hsr
        by_cases h1 : s.counter > 0
        · rw [if_pos h1] at hsr
          left
          exact ⟨(Option.some.inj hsr).symm ▸ rfl, h1, (Option.some.inj hsr).symm ▸ rfl⟩
        · rw [if_neg h1] at hsr
          by_cases h2 : s.limit = -1
          · rw [if_pos h2] at hsr
            right
            exact ⟨(Option.some.inj hsr).symm, h2⟩
          · rw [if_neg h2] at hsr
            exact absurd hsr (by simp)
      refine ⟨keysNodup_aerase _ _ w1, ?_, ?_, w4⟩
      · intro e he
        dsimp only at he ⊢
        have heL : e ∈ m.acquiring_ctxs := mem_aerase _ _ _ he
        obtain ⟨s0, hs0, hdj0⟩ := w2 e heL
        by_cases her : e.2 = ref
        · rw [her]
          refine ⟨s2, aget_aset_self _ _ _, ?_⟩
          have hseq : s0 = s := by
            rw [her] at hs0
            rw [hs0] at hs
            exact Option.some.inj hs.symm |>.symm
          rcases hs2 with ⟨hlim2, hpos2, hcnt2⟩ | ⟨hs2s, hlim2⟩
          · rcases hdj0 with hL | hC
            · left
              rw [hlim2, ← hseq]
              exact hL
            · right
              unfold refCount at hC ⊢
              rw [hcnt2, hcnt_eq]
              rw [her] at hC
              rw [hseq] at hC
              omega
          · rw [hs2s]
            left
            exact hlim2
        · refine ⟨s0, ?_, ?_⟩
          · rw [aget_aset_ne _ _ _ _ her]
            exact hs0
          · rcases hdj0 with hL | hC
            · exact Or.inl hL
            · right
              unfold refCount at hC ⊢
              rw [hcnt_ne e.2 her]
              exact hC
      · intro p hp
        rcases mem_aset _ _ _ _ hp with h2 | h2
        · exact w3 _ h2
        · rw [h2]
          exact w3 (ref, s) (aget_mem _ _ _ hs)

theorem toCcBucket_spec (res : BucketResource) (l : Int) (m : ConcurrencyManager) :
    ((toCcBucket res l m).2 = m ∧ (toCcBucket res l m).1.refs = []) ∨
    ((toCcBucket res l m).2.heap = aset m.nextRef ⟨0, l⟩ m.heap ∧
     (toCcBucket res l m).2.nextRef = m.nextRef + 1 ∧
     (toCcBucket res l m).2.acquiring_ctxs = m.acquiring_ctxs ∧
     (toCcBucket res l m).2.buckets = m.buckets ∧
     (toCcBucket res l m).1.refs = [m.nextRef]) := by
  cases res with
  | MEMBER =>
    left
    refine ⟨rfl, ?_⟩
    show ([] : List (Snowflake × Nat)).map Prod.snd ++
      (([] : List (Snowflake × List (Snowflake × Nat))).map
        (fun gm => gm.2.map Prod.snd)).flatten = []
    rfl
  | GLOBAL =>
    right
    simp [toCcBucket, ConcurrencyManager.alloc, CcResource.refs]
  | USER => exact Or.inl ⟨rfl, rfl⟩
  | CHANNEL => exact Or.inl ⟨rfl, rfl⟩
  | PARENT_CHANNEL => exact Or.inl ⟨rfl, rfl⟩
  | TOP_ROLE => exact Or.inl ⟨rfl, rfl⟩
  | GUILD => exact Or.inl ⟨rfl, rfl⟩

theorem cleanup_refs (r : CcResource) (heap : List (Nat × ConcurrencyLimit))
    (x : Nat) (hx : x ∈ (r.cleanup heap).refs) : x ∈ r.refs := by
  cases r with
  | flat res l mapping =>
    simp only [CcResource.cleanup] at hx
    rw [mem_flat_refs] at hx ⊢
    obtain ⟨e, he, hex⟩ := hx
    exact ⟨e, List.mem_of_mem_filter he, hex⟩
  | member l dm mp =>
    simp only [CcResource.cleanup] at hx
    rw [mem_member_refs] at hx ⊢
    rcases hx with ⟨e, he, hex⟩ | ⟨gm, hgm, e, he, hex⟩
    · exact Or.inl ⟨e, List.mem_of_mem_filter he, hex⟩
    · have hgm' := List.mem_of_mem_filter hgm
      obtain ⟨gm0, hgm0, hmapeq⟩ := List.mem_map.1 hgm'
      refine Or.inr ⟨gm0, hgm0, e, ?_, hex⟩
      have : e ∈ (gm0.1, gm0.2.filter (fun e => ¬ expiredRef heap e.2)).2 := by
        rw [hmapeq]
        exact he
      exact List.mem_of_mem_filter this
  | global l ref => exact hx

theorem wf_set_bucket (m : ConcurrencyManager) (bucket_id : String)
    (res : BucketResource) (l : Int) (m' : ConcurrencyManager) (hwf : CcWf m)
    (h : m.set_bucket bucket_id res l = some m') : CcWf m' := by
  unfold ConcurrencyManager.set_bucket at h
  by_cases h1 : l ≤ 0
  · rw [if_pos h1] at h
    exact absurd h (by simp)
  · rw [if_neg h1] at h
    rcases ht : toCcBucket res l m with ⟨bucket, M1⟩
    rw [ht] at h
    dsimp only at h
    have hts := toCcBucket_spec res l m
    rw [ht] at hts
    dsimp only at hts
    have hM1 : CcWf M1 ∧ (∀ r ∈ bucket.refs, r < M1.nextRef) := by
      rcases hts with ⟨hM, hrf⟩ | ⟨hh, hn, hlg, hbk, hrf⟩
      · subst hM
        refine ⟨hwf, ?_⟩
        intro r hr
        rw [hrf] at hr
        simp at hr
      · refine ⟨wf_extend m M1 _ hwf hlg hbk hh hn, ?_⟩
        intro r hr
        rw [hrf] at hr
        simp at hr
        subst hr
        rw [hn]
        omega
    obtain ⟨hwfM1, hrefs1⟩ := hM1
    have hwfM2 : CcWf { M1 with buckets := aset bucket_id bucket M1.buckets } :=
      wf_install M1 bucket_id bucket hwfM1 hrefs1
    by_cases hd : bucket_id = "default"
    · rw [if_pos hd] at h
      rcases hcp : bucket.copy ({ M1 with buckets := aset bucket_id bucket M1.buckets }) with
        ⟨tmpl, M2⟩
      rw [hcp] at h
      dsimp only at h
      have hm' := (Option.some.inj h).symm
      subst hm'
      have hcs := copy_spec bucket { M1 with buckets := aset bucket_id bucket M1.buckets }
      rw [hcp] at hcs
      dsimp only at hcs
      rcases hcs with ⟨hM2, _⟩ | ⟨hh2, hn2, hlg2, hbk2, _⟩
      · rw [hM2]
        exact hwfM2
      · exact wf_extend _ M2 _ hwfM2 hlg2 hbk2 hh2 hn2
    · rw [if_neg hd] at h
      have hm' := (Option.some.inj h).symm
      subst hm'
      exact hwfM2

/-- Replacing the default template with a freshly copied bucket preserves
the invariant (the template itself is not constrained by it, but a global
copy allocates a heap cell). -/
theorem wf_copy_template (M : ConcurrencyManager) (b : CcResource) (hwf : CcWf M) :
    CcWf { (b.copy M).2 with default_bucket_template := (b.copy M).1 } := by
  have hcs := copy_spec b M
  rcases hcs with ⟨hM, _⟩ | ⟨hh, hn, hlg, hbk, _⟩
  · rw [hM]
    exact hwf
  · exact wf_extend M _ _ hwf hlg hbk hh hn

theorem wf_disable_bucket (m : ConcurrencyManager) (bucket_id : String)
    (hwf : CcWf m) : CcWf (m.disable_bucket bucket_id) := by
  have hwfM1 : CcWf (m.alloc ⟨0, -1⟩).2 := wf_extend m _ _ hwf rfl rfl rfl rfl
  have hrefs : ∀ r ∈ (CcResource.global (-1) (m.alloc ⟨0, -1⟩).1).refs,
      r < (m.alloc ⟨0, -1⟩).2.nextRef := by
    intro r hr
    rw [mem_global_refs] at hr
    subst hr
    show m.nextRef < m.nextRef + 1
    omega
  have hwfM2 := wf_install (m.alloc ⟨0, -1⟩).2 bucket_id
    (CcResource.global (-1) (m.alloc ⟨0, -1⟩).1) hwfM1 hrefs
  unfold ConcurrencyManager.disable_bucket
  dsimp only
  by_cases hd : bucket_id = "default"
  · rw [if_pos hd]
    exact wf_copy_template _ _ hwfM2
  · rw [if_neg hd]
    exact hwfM2

theorem wf_cleanup (m : ConcurrencyManager) (hwf : CcWf m) : CcWf m.cleanup := by
  obtain ⟨w1, w2, w3, w4⟩ := hwf
  refine ⟨w1, w2, w3, ?_⟩
  intro b hb r hr
  unfold ConcurrencyManager.cleanup at hb
  dsimp only at hb
  obtain ⟨b0, hb0, hbeq⟩ := List.mem_map.1 hb
  rw [← hbeq] at hr
  dsimp only at hr
  exact w4 b0 hb0 r (cleanup_refs _ _ _ hr)

theorem wf_ccStep (m : ConcurrencyManager) (op : CcOp) (hwf : CcWf m) :
    CcWf (ccStep m op) := by
  cases op with
  | tryAcquireOp bucket_id ctx => exact wf_try_acquire m bucket_id ctx hwf
  | releaseOp bucket_id ctx =>
    cases hr : m.release bucket_id ctx with
    | none => simpa [ccStep, hr] using hwf
    | some m' =>
      have := wf_release m bucket_id ctx m' hwf hr
      simpa [ccStep, hr] using this
  | setBucketOp bucket_id res l =>
    cases hr : m.set_bucket bucket_id res l with
    | none => simpa [ccStep, hr] using hwf
    | some m' =>
      have := wf_set_bucket m bucket_id res l m' hwf hr
      simpa [ccStep, hr] using this
  | disableBucketOp bucket_id => exact wf_disable_bucket m bucket_id hwf
  | cleanupOp => exact wf_cleanup m hwf

theorem wf_reachable (m : ConcurrencyManager) (h : CcReachable m) : CcWf m := by
  induction h with
  | init => exact wf_init
  | step m op hm ih => exact wf_ccStep m op ih

/-- C9 (implicit): the public `InMemoryConcurrencyLimiter.release` never
raises the release-without-acquire `RuntimeError` in any state reachable
through the public interface (`try_acquire`, `release`, `set_bucket`,
`disable_bucket`, sweep `cleanup`): the manager maintains the invariant
that every ledger entry aliases a live state which is unlimited or whose
counter dominates the number of ledger aliases, so the error branch of
`_ConcurrencyLimit.release` is unreachable. -/
theorem claim_C9 (m : ConcurrencyManager) (h : CcReachable m)
    (bucket_id : String) (ctx : Ctx) :
    ((m.release bucket_id ctx).isSome = true) := by
  exact release_isSome_of_wf m (wf_reachable m h) bucket_id ctx

/-- Witness for C9: after acquiring bucket `"b"` on the fresh limiter,
both the matching release and a release of a never-acquired pair succeed. -/
theorem claim_C9_witness :
    (((ccStep ConcurrencyManager.init (CcOp.tryAcquireOp "b" ctxA)).release
        "b" ctxA).isSome = true) ∧
    ((ConcurrencyManager.init.release "x" ctxB).isSome = true) := by
  constructor
  · exact claim_C9 _ (CcReachable.step _ _ CcReachable.init) "b" ctxA
  · exact claim_C9 _ CcReachable.init "x" ctxB

end Tanjun
